import Mathlib

set_option maxRecDepth 40000

/-!
Verification of the mini byte-pair-encoding tokenizer (src/tokenizers/mini.py).

The Python source is shallowly embedded: strings become lists of scalar
values (List Char), byte strings become lists of Nat (< 256), Python dicts
become insertion-ordered association lists (matching dict iteration order,
which the max-selection of the training loop depends on), and raised exceptions
become an Except error type whose constructors correspond one-to-one to the
distinct exception classes / messages raised by the source.
-/

namespace Mini

/-- Pair-count table: insertion-ordered association list, modelling the
Python DefaultDict (new keys are appended at the end, matching dict
iteration order). -/
abbrev PairCounts := List ((Nat × Nat) × Nat)

/-- Ordered merge list: each entry is (pair, assigned symbol); list position
is the merge rank. -/
abbrev MergeList := List ((Nat × Nat) × Nat)

/-- Vocabulary: symbol to byte-expansion table, as an insertion-ordered
association list modelling the Python dict. -/
abbrev Vocab := List (Nat × List Nat)

/-- Increment the count of a pair, modelling DefaultDict counts with
counts incremented by one per occurrence: an existing key keeps its position,
a new key is appended with count 1. -/
def bumpPair : PairCounts → (Nat × Nat) → PairCounts
  | [], p => [(p, 1)]
  | (q, n) :: rest, p =>
    if q = p then (q, n + 1) :: rest else (q, n) :: bumpPair rest p

/-- Count the adjacent pairs of one word into an accumulator, modelling the
inner loop (for pair in zip(word, word[1:]): counts[pair] += 1) of
Tokenizer.build at src lines 143-146. -/
def countWordPairs (counts : PairCounts) (word : List Nat) : PairCounts :=
  (word.zip word.tail).foldl bumpPair counts

/-- Count the adjacent pairs of every word of a corpus, starting from an
accumulator, modelling the outer loop of Tokenizer.build at src lines 143-146
(also the recount at lines 170-174). -/
def countCorpus (counts : PairCounts) (corpus : List (List Nat)) : PairCounts :=
  corpus.foldl countWordPairs counts

/-- Left fold of Python max over nonempty items: replaces the current best
only when the key is strictly greater, so the first maximal item wins. -/
def maxPairAux (best : (Nat × Nat) × Nat) : PairCounts → (Nat × Nat) × Nat
  | [] => best
  | (q, m) :: rest => maxPairAux (if best.2 < m then (q, m) else best) rest

/-- Python max(counts.items(), key=value) returning the full (pair, count)
item; none on an empty table (where Python max would raise, a case the
source guards against). -/
def getMaxPair : PairCounts → Option ((Nat × Nat) × Nat)
  | [] => none
  | item :: rest => some (maxPairAux item rest)

/-- Generator body of replace_pair_with_token (src lines 67-77), translated
index-for-index: while i < len-1, on a pair match yield the new token and
advance two, otherwise yield tokens[i] and advance one; after the loop, if
one position remains, yield the last element. -/
def replaceGen (tokens : List Nat) (pair : Nat × Nat) (new_token : Nat)
    (i : Nat) : List Nat :=
  if i < tokens.length - 1 then
    if tokens.getD i 0 = pair.1 ∧ tokens.getD (i + 1) 0 = pair.2 then
      new_token :: replaceGen tokens pair new_token (i + 2)
    else
      tokens.getD i 0 :: replaceGen tokens pair new_token (i + 1)
  else if i < tokens.length then [tokens.getD (tokens.length - 1) 0] else []
termination_by tokens.length - i

/-- Model of replace_pair_with_token (src lines 67-77): the generator run
from index 0, collected into a list (list(replace_pair_with_token(...))). -/
def replace_pair_with_token (tokens : List Nat) (pair : Nat × Nat)
    (new_token : Nat) : List Nat :=
  replaceGen tokens pair new_token 0

/-- Single left-to-right non-overlapping replacement pass, written as the
specification describes it (section 4.3d): scan left to right, replace each
adjacent occurrence of the pair by the new symbol advancing two positions,
otherwise emit the symbol and advance one. -/
def pairReplacePass (pair : Nat × Nat) (new_token : Nat) : List Nat → List Nat
  | a :: b :: rest =>
    if a = pair.1 ∧ b = pair.2 then new_token :: pairReplacePass pair new_token rest
    else a :: pairReplacePass pair new_token (b :: rest)
  | xs => xs

/-- UTF-8 encoding of one Unicode scalar value (as produced by Python
str.encode for each character of a well-formed string). -/
def utf8EncodeChar (n : Nat) : List Nat :=
  if n < 0x80 then [n]
  else if n < 0x800 then [0xC0 + n / 64, 0x80 + n % 64]
  else if n < 0x10000 then
    [0xE0 + n / 4096, 0x80 + n / 64 % 64, 0x80 + n % 64]
  else
    [0xF0 + n / 262144, 0x80 + n / 4096 % 64, 0x80 + n / 64 % 64, 0x80 + n % 64]

/-- UTF-8 encoding of a whole string (text.encode in the source), the
flat byte sequence of all its characters. -/
def strToBytes (s : List Char) : List Nat :=
  (s.map (fun c => utf8EncodeChar c.toNat)).flatten

/-- Unicode replacement character U+FFFD, produced by Python
bytes.decode("utf-8", errors="replace") for malformed input. -/
def replChar : Char := Char.ofNat 0xFFFD

/-- Continuation-byte test (0x80-0xBF). -/
def isCont (b : Nat) : Bool := 0x80 ≤ b && b < 0xC0

/-- Valid first-continuation range after a three-byte lead: 0xE0 requires
0xA0-0xBF (no overlong forms) and 0xED requires 0x80-0x9F (no surrogates). -/
def cont3 (b c : Nat) : Bool :=
  if b = 0xE0 then 0xA0 ≤ c && c < 0xC0
  else if b = 0xED then 0x80 ≤ c && c < 0xA0
  else isCont c

/-- Valid first-continuation range after a four-byte lead: 0xF0 requires
0x90-0xBF (no overlong forms) and 0xF4 requires 0x80-0x8F (scalar values
stop at 0x10FFFF). -/
def cont4 (b c : Nat) : Bool :=
  if b = 0xF0 then 0x90 ≤ c && c < 0xC0
  else if b = 0xF4 then 0x80 ≤ c && c < 0x90
  else isCont c

/-- Model of Python bytes(...).decode("utf-8", errors="replace"): decodes
well-formed sequences exactly; each maximal invalid prefix is replaced by
U+FFFD and scanning resumes, so every input yields a string and the
function never fails. -/
def utf8DecodeReplace : List Nat → List Char
  | [] => []
  | b :: rest =>
    if b < 0x80 then Char.ofNat b :: utf8DecodeReplace rest
    else if b < 0xC2 then replChar :: utf8DecodeReplace rest
    else if b < 0xE0 then
      match rest with
      | [] => [replChar]
      | c :: rest2 =>
        if isCont c then
          Char.ofNat ((b - 0xC0) * 64 + (c - 0x80)) :: utf8DecodeReplace rest2
        else replChar :: utf8DecodeReplace (c :: rest2)
    else if b < 0xF0 then
      match rest with
      | [] => [replChar]
      | c :: rest2 =>
        if cont3 b c then
          match rest2 with
          | [] => [replChar]
          | d :: rest3 =>
            if isCont d then
              Char.ofNat ((b - 0xE0) * 4096 + (c - 0x80) * 64 + (d - 0x80)) ::
                utf8DecodeReplace rest3
            else replChar :: utf8DecodeReplace (d :: rest3)
        else replChar :: utf8DecodeReplace (c :: rest2)
    else if b < 0xF5 then
      match rest with
      | [] => [replChar]
      | c :: rest2 =>
        if cont4 b c then
          match rest2 with
          | [] => [replChar]
          | d :: rest3 =>
            if isCont d then
              match rest3 with
              | [] => [replChar]
              | e :: rest4 =>
                if isCont e then
                  Char.ofNat ((b - 0xF0) * 262144 + (c - 0x80) * 4096 +
                    (d - 0x80) * 64 + (e - 0x80)) :: utf8DecodeReplace rest4
                else replChar :: utf8DecodeReplace (e :: rest4)
            else replChar :: utf8DecodeReplace (d :: rest3)
        else replChar :: utf8DecodeReplace (c :: rest2)
    else replChar :: utf8DecodeReplace rest
termination_by bs => bs.length
decreasing_by all_goals (simp_all [List.length_cons]; try omega)

/-- Error conditions raised by the source, one constructor per distinct
Python exception message (all ValueError unless noted). -/
inductive TokErr where
  /-- ValueError with message: Vocabulary already built -/
  | vocabularyAlreadyBuilt
  /-- ValueError with message: Vocabulary not built yet. Call build() first. -/
  | vocabularyNotBuiltYet
  /-- ValueError with message: Tokenizer must be built before saving -/
  | mustBeBuiltBeforeSaving
  /-- ValueError with message: Invalid file format: missing version -/
  | missingVersion
  /-- ValueError with message: Unsupported file version: (the version read) -/
  | unsupportedFileVersion (version : Nat)
  /-- ValueError with message: Invalid file format: missing entry count -/
  | missingEntryCount
  /-- ValueError with message: Invalid file format: incomplete pair data -/
  | incompletePairData
  /-- ValueError with message: Invalid file format: incomplete token data -/
  | incompleteTokenData
  /-- struct.error raised by struct.pack for a value outside the u32 range -/
  | structPackOutOfRange
  /-- FileNotFoundError raised by open() on a missing path -/
  | fileNotFound
  deriving DecidableEq

/-- Default vocabulary size (src line 14). -/
def VOCAB_SIZE : Nat := 300

/-- Character classifier standing for the Unicode character properties the
regex pattern consults: letter matches p\x7bL\x7d, digit matches p\x7bN\x7d,
space matches the whitespace class. The segmenter model is parametric in
it, so every theorem below holds for the actual Unicode tables. -/
structure CharClassifier where
  letter : Char → Bool
  digit : Char → Bool
  space : Char → Bool

/-- Apostrophe character, the first character of the contraction branches. -/
def apostrophe : Char := Char.ofNat 39

/-- Length of the longest prefix whose characters all satisfy f (a greedy
character-class run in the regex). -/
def lenWhile (f : Char → Bool) (cs : List Char) : Nat :=
  (cs.takeWhile f).length

/-- Match length of the contraction alternatives of GPT2_SPLIT_PATTERN
(src line 18) at the current position, case-insensitive per regex.IGNORECASE. -/
def contractionLen (cs : List Char) : Option Nat :=
  match cs with
  | a :: c :: rest =>
    if a ≠ apostrophe then none
    else if c = 's' ∨ c = 'S' ∨ c = 't' ∨ c = 'T' then some 2
    else if c = 'r' ∨ c = 'R' then
      match rest with
      | e :: _ => if e = 'e' ∨ e = 'E' then some 3 else none
      | [] => none
    else if c = 'v' ∨ c = 'V' then
      match rest with
      | e :: _ => if e = 'e' ∨ e = 'E' then some 3 else none
      | [] => none
    else if c = 'm' ∨ c = 'M' then some 2
    else if c = 'l' ∨ c = 'L' then
      match rest with
      | e :: _ => if e = 'l' ∨ e = 'L' then some 3 else none
      | [] => none
    else if c = 'd' ∨ c = 'D' then some 2
    else none
  | _ => none

/-- Match length of an optional-space-then-class-run branch of the pattern
(a literal space, then one or more characters of the class, greedy with
backtracking of the optional space). -/
def branchRun (isC : Char → Bool) : List Char → Option Nat
  | [] => none
  | c :: rest =>
    if c = ' ' then
      if 0 < lenWhile isC rest then some (1 + lenWhile isC rest)
      else if isC c then some 1
      else none
    else
      if 0 < lenWhile isC (c :: rest) then some (lenWhile isC (c :: rest))
      else none

/-- Match length of the branch of one or more whitespace characters followed
by a negative lookahead for non-whitespace: the greedy run backtracks until
the next character is whitespace or the end of input, so a maximal run of r
whitespace characters matches wholly at the end of input and gives back one
character (when r is at least 2) before a non-whitespace character. -/
def wsLookaheadLen (sp : Char → Bool) (cs : List Char) : Option Nat :=
  if lenWhile sp cs = 0 then none
  else if lenWhile sp cs = cs.length then some (lenWhile sp cs)
  else if 2 ≤ lenWhile sp cs then some (lenWhile sp cs - 1)
  else none

/-- Match length of the final branch of one or more whitespace characters,
greedy. -/
def wsRunLen (sp : Char → Bool) (cs : List Char) : Option Nat :=
  if 0 < lenWhile sp cs then some (lenWhile sp cs) else none

/-- Character class of the punctuation branch: not whitespace, not a letter,
not a digit. -/
def isOther (k : CharClassifier) (c : Char) : Bool :=
  !k.space c && !k.letter c && !k.digit c

/-- Model of matching GPT2_SPLIT_PATTERN at one position: ordered
alternation, the first branch that matches wins, each branch greedy. -/
def gpt2MatchLen (k : CharClassifier) (cs : List Char) : Option Nat :=
  (contractionLen cs).orElse fun _ =>
  (branchRun k.letter cs).orElse fun _ =>
  (branchRun k.digit cs).orElse fun _ =>
  (branchRun (isOther k) cs).orElse fun _ =>
  (wsLookaheadLen k.space cs).orElse fun _ =>
  wsRunLen k.space cs

/-- Model of the scan of regex.findall: try a match at the current position;
on success emit it and continue after it, on failure skip one character
(which then belongs to no match). Fuelled by the input length. -/
def findallLoop (k : CharClassifier) : Nat → List Char → List (List Char)
  | 0, _ => []
  | _, [] => []
  | fuel + 1, cs =>
    match gpt2MatchLen k cs with
    | some n => cs.take n :: findallLoop k fuel (cs.drop n)
    | none => findallLoop k fuel (cs.drop 1)

/-- Model of regex.findall(GPT2_SPLIT_PATTERN, text) (src line 26). -/
def gpt2Findall (k : CharClassifier) (s : List Char) : List (List Char) :=
  findallLoop k s.length s

/-- Model of str_to_ints (src lines 23-27): each segmenter word is
independently UTF-8 encoded into its byte values. -/
def str_to_ints (k : CharClassifier) (text : List Char) : List (List Nat) :=
  (gpt2Findall k text).map strToBytes

/-- Lookup in a dict modelled as an association list. -/
def vocabFind : Vocab → Nat → Option (List Nat)
  | [], _ => none
  | (key, v) :: rest, n => if key = n then some v else vocabFind rest n

/-- Lookup with empty default, modelling dict.get(token, []) in decode; the
vocabulary construction (src lines 181-182, 278-279) indexes the dict
directly, which for every input reachable in the claims below always finds
the key (the default branch is exercised only by decode on unknown ids). -/
def vocabIdx (vb : Vocab) (n : Nat) : List Nat :=
  (vocabFind vb n).getD []

/-- Dict assignment: an existing key is updated in place, a new key is
appended. -/
def vocabSet : Vocab → Nat → List Nat → Vocab
  | [], n, v => [(n, v)]
  | (key, w) :: rest, n, v =>
    if key = n then (key, v) :: rest else (key, w) :: vocabSet rest n v

/-- Base vocabulary: every byte value maps to itself as a one-byte
expansion (the dict comprehension at src lines 179 and 277). -/
def baseVocab : Vocab := (List.range 256).map fun i => (i, [i])

/-- One step of vocabulary construction: the merge token is assigned the
concatenation of the expansions of its pair (src lines 181-182, 278-279). -/
def vocabGrow (vb : Vocab) (m : (Nat × Nat) × Nat) : Vocab :=
  vocabSet vb m.2 (vocabIdx vb m.1.1 ++ vocabIdx vb m.1.2)

/-- Vocabulary construction from the merge list in rank order (src lines
179-182 and 277-279). -/
def buildVocab (merges : MergeList) : Vocab :=
  merges.foldl vocabGrow baseVocab

/-- Concatenated byte expansion of a token sequence, modelling the gen()
generator of decode (src lines 201-204): unknown ids contribute nothing. -/
def expandTokens (vb : Vocab) (tokens : List Nat) : List Nat :=
  (tokens.map (fun tk => vocabIdx vb tk)).flatten

/-- Tokenizer state (class Tokenizer, src lines 124-130); vocab is the
attribute assigned by build and load, empty beforehand. -/
structure Tokenizer where
  built : Bool
  vocab_size : Nat
  counts : PairCounts
  merges : MergeList
  corpus : List (List Nat)
  vocab : Vocab
  deriving DecidableEq

/-- Constructor Tokenizer(vocab_size) (src lines 125-130); the Python
expression (vocab_size or VOCAB_SIZE) falls back to the default when the
argument is absent or falsy (zero). -/
def Tokenizer.new (vs : Option Nat) : Tokenizer :=
  { built := false
    vocab_size := if vs.getD 0 = 0 then VOCAB_SIZE else vs.getD 0
    counts := []
    merges := []
    corpus := []
    vocab := [] }

/-- Tokenizer.add (src lines 132-135). -/
def Tokenizer.add (t : Tokenizer) (k : CharClassifier) (text : List Char) :
    Except TokErr Tokenizer :=
  if t.built then .error .vocabularyAlreadyBuilt
  else .ok { t with corpus := t.corpus ++ str_to_ints k text }

/-- Training loop of Tokenizer.build (src lines 149-176), fuelled by the
remaining token ids (vocab_size - new_token, so new_token equals vocab_size
minus the remaining fuel): stop when the target size is reached, when no
pair exists, or when the best pair occurs at most once; otherwise record the
merge, rewrite every word and recount. -/
def buildLoop (vocabSize : Nat) :
    Nat → PairCounts → List (List Nat) → MergeList →
    PairCounts × List (List Nat) × MergeList
  | 0, counts, corpus, merges => (counts, corpus, merges)
  | fuel + 1, counts, corpus, merges =>
    match getMaxPair counts with
    | none => (counts, corpus, merges)
    | some (pair, cnt) =>
      if cnt ≤ 1 then (counts, corpus, merges)
      else
        let new_token := vocabSize - (fuel + 1)
        let corpus2 := corpus.map fun w => replace_pair_with_token w pair new_token
        let counts2 := countCorpus [] corpus2
        buildLoop vocabSize fuel counts2 corpus2 (merges ++ [(pair, new_token)])

/-- Tokenizer.build (src lines 137-182): count pairs, run the training loop
from token id 256, then derive the vocabulary from the merges. -/
def Tokenizer.build (t : Tokenizer) : Except TokErr Tokenizer :=
  if t.built then .error .vocabularyAlreadyBuilt
  else
    let counts0 := countCorpus t.counts t.corpus
    let res := buildLoop t.vocab_size (t.vocab_size - 256) counts0 t.corpus t.merges
    .ok { t with
          built := true
          counts := res.1
          corpus := res.2.1
          merges := res.2.2
          vocab := buildVocab res.2.2 }

/-- Tokenizer.encode (src lines 184-194): UTF-8 encode the whole input as
one flat byte sequence, then apply each merge in stored (rank) order as one
replacement pass. -/
def Tokenizer.encode (t : Tokenizer) (text : List Char) :
    Except TokErr (List Nat) :=
  if !t.built then .error .vocabularyNotBuiltYet
  else
    .ok (t.merges.foldl
      (fun tokens m => replace_pair_with_token tokens m.1 m.2)
      (strToBytes text))

/-- Tokenizer.decode (src lines 196-206): expand every token through the
vocabulary (unknown ids contribute nothing) and decode the byte buffer as
UTF-8 with the replacement policy. -/
def Tokenizer.decode (t : Tokenizer) (tokens : List Nat) :
    Except TokErr (List Char) :=
  if !t.built then .error .vocabularyNotBuiltYet
  else .ok (utf8DecodeReplace (expandTokens t.vocab tokens))

/-- Little-endian layout of a u32 value (struct.pack with format <I). -/
def u32le (n : Nat) : List Nat :=
  [n % 256, n / 256 % 256, n / 65536 % 256, n / 16777216 % 256]

/-- struct.pack with format <I: little-endian bytes, or struct.error when
the value does not fit in 32 bits. -/
def packU32 (n : Nat) : Except TokErr (List Nat) :=
  if n < 4294967296 then .ok (u32le n) else .error .structPackOutOfRange

/-- Bytes written for the merge entries (src lines 230-234): for each merge
in stored order, the pair as two u32 then the token as one u32. -/
def saveMerges : MergeList → Except TokErr (List Nat)
  | [] => .ok []
  | (pair, token) :: rest => do
    let p0 ← packU32 pair.1
    let p1 ← packU32 pair.2
    let tk ← packU32 token
    let restBytes ← saveMerges rest
    .ok (p0 ++ p1 ++ tk ++ restBytes)

/-- save_tokenizer (src lines 209-234), as the byte string written to the
file: version 1, entry count, then the merge entries in rank order. -/
def save_tokenizer (t : Tokenizer) : Except TokErr (List Nat) :=
  if !t.built then .error .mustBeBuiltBeforeSaving
  else do
    let ver ← packU32 1
    let cnt ← packU32 t.merges.length
    let body ← saveMerges t.merges
    .ok (ver ++ cnt ++ body)

/-- u32 value of the first four entries of a byte list, little-endian
(struct.unpack with format <I). -/
def leU32 (bs : List Nat) : Nat :=
  bs.getD 0 0 + bs.getD 1 0 * 256 + bs.getD 2 0 * 65536 + bs.getD 3 0 * 16777216

/-- Record-reading loop of load_tokenizer (src lines 261-274): for each of
the declared entries, read 8 bytes of pair data then 4 bytes of token data,
failing with the matching truncation error when fewer bytes remain. -/
def readMergeEntries : Nat → List Nat → Except TokErr MergeList
  | 0, _ => .ok []
  | n + 1, bs =>
    if bs.length < 8 then .error .incompletePairData
    else
      let pair0 := leU32 (bs.take 4)
      let pair1 := leU32 ((bs.drop 4).take 4)
      let bs2 := bs.drop 8
      if bs2.length < 4 then .error .incompleteTokenData
      else do
        let rest ← readMergeEntries n (bs2.drop 4)
        .ok (((pair0, pair1), leU32 (bs2.take 4)) :: rest)

/-- Body of load_tokenizer (src lines 239-281) on the bytes of the opened
file: check the version, read the count and the records, then reconstruct a
built tokenizer and its vocabulary. -/
def load_bytes (bs : List Nat) : Except TokErr Tokenizer :=
  if bs.length < 4 then .error .missingVersion
  else
    let version := leU32 (bs.take 4)
    if version ≠ 1 then .error (.unsupportedFileVersion version)
    else
      let bs2 := bs.drop 4
      if bs2.length < 4 then .error .missingEntryCount
      else do
        let merges ← readMergeEntries (leU32 (bs2.take 4)) (bs2.drop 4)
        .ok { built := true
              vocab_size := VOCAB_SIZE
              counts := []
              merges := merges
              corpus := []
              vocab := buildVocab merges }

/-- load_tokenizer (src lines 237-281): open() raises FileNotFoundError on
a missing path, otherwise the file contents are parsed; the filesystem is
modelled as a function from paths to optional byte strings. -/
def load_tokenizer (fs : String → Option (List Nat)) (path : String) :
    Except TokErr Tokenizer :=
  match fs path with
  | none => .error .fileNotFound
  | some bs => load_bytes bs

/-- Sequence of add calls. -/
def addTexts (k : CharClassifier) (t : Tokenizer) :
    List (List Char) → Except TokErr Tokenizer
  | [] => .ok t
  | s :: rest => do
    let t2 ← t.add k s
    addTexts k t2 rest

/-- Tokenizer reachable by constructing, adding any number of texts, then
building. -/
def trainTokenizer (k : CharClassifier) (vs : Option Nat)
    (texts : List (List Char)) : Except TokErr Tokenizer := do
  let t ← addTexts k (Tokenizer.new vs) texts
  t.build

/-- Encoding as the specification states it (section 4.4): UTF-8 encode the
whole input as one flat byte sequence (no segmentation), then apply every
merge in strictly ascending rank order, each as one left-to-right
non-overlapping replacement pass. -/
def specEncode (merges : MergeList) (text : List Char) : List Nat :=
  merges.foldl (fun tokens m => pairReplacePass m.1 m.2 tokens) (strToBytes text)

theorem pairReplacePass_nil (pair : Nat × Nat) (nt : Nat) :
    pairReplacePass pair nt [] = [] := rfl

theorem pairReplacePass_single (pair : Nat × Nat) (nt x : Nat) :
    pairReplacePass pair nt [x] = [x] := rfl

theorem replaceGen_eq_pass_aux (fuel : Nat) :
    ∀ (tokens : List Nat) (pair : Nat × Nat) (nt i : Nat),
      tokens.length - i ≤ fuel →
      replaceGen tokens pair nt i = pairReplacePass pair nt (tokens.drop i) := by
  induction fuel with
  | zero =>
    intro tokens pair nt i h
    have hi : tokens.length ≤ i := by omega
    rw [replaceGen]
    rw [if_neg (by omega), if_neg (by omega), List.drop_eq_nil_of_le hi]
    rfl
  | succ fuel ih =>
    intro tokens pair nt i h
    rw [replaceGen]
    by_cases h1 : i < tokens.length - 1
    · have hi : i < tokens.length := by omega
      have hi1 : i + 1 < tokens.length := by omega
      have hdrop : tokens.drop i = tokens[i] :: tokens[i + 1] :: tokens.drop (i + 2) := by
        rw [List.drop_eq_getElem_cons hi, List.drop_eq_getElem_cons hi1]
      rw [if_pos h1, hdrop]
      rw [List.getD_eq_getElem tokens 0 hi, List.getD_eq_getElem tokens 0 hi1]
      by_cases hp : tokens[i] = pair.1 ∧ tokens[i + 1] = pair.2
      · rw [if_pos hp, pairReplacePass, if_pos ⟨hp.1, hp.2⟩,
          ih tokens pair nt (i + 2) (by omega)]
      · rw [if_neg hp, pairReplacePass, if_neg hp,
          ih tokens pair nt (i + 1) (by omega)]
        rw [← List.drop_eq_getElem_cons hi1]
    · rw [if_neg h1]
      by_cases h2 : i < tokens.length
      · have hieq : i = tokens.length - 1 := by omega
        have hdrop : tokens.drop i = [tokens[i]] := by
          rw [List.drop_eq_getElem_cons h2, List.drop_eq_nil_of_le (by omega)]
        rw [if_pos h2, hdrop, pairReplacePass_single]
        rw [← hieq, List.getD_eq_getElem tokens 0 h2]
      · rw [if_neg h2, List.drop_eq_nil_of_le (by omega)]
        rfl

/-- The index-based generator of the source equals the structural
left-to-right non-overlapping replacement pass. -/
theorem replace_pair_eq_pass (tokens : List Nat) (pair : Nat × Nat) (nt : Nat) :
    replace_pair_with_token tokens pair nt = pairReplacePass pair nt tokens := by
  have := replaceGen_eq_pass_aux tokens.length tokens pair nt 0 (by omega)
  simpa [replace_pair_with_token] using this

/-- C2. For every built tokenizer and every input string, encode UTF-8
encodes the whole string into one flat byte sequence (it does not re-run
the segmenter) and then applies each learned merge in strictly ascending
rank order, each application being a single left-to-right non-overlapping
replacement pass that replaces each adjacent occurrence of the pair with
the merge symbol, advances past both positions, and never re-scans output
produced in the same pass: encode equals the specification-side specEncode. -/
theorem encode_is_ranked_passes (t : Tokenizer) (text : List Char)
    (h : t.built = true) :
    t.encode text = Except.ok (specEncode t.merges text) := by
  have key : ∀ (ms : MergeList) (acc : List Nat),
      ms.foldl (fun tokens m => replace_pair_with_token tokens m.1 m.2) acc =
      ms.foldl (fun tokens m => pairReplacePass m.1 m.2 tokens) acc := by
    intro ms
    induction ms with
    | nil => intro acc; rfl
    | cons m rest ih =>
      intro acc
      simp only [List.foldl_cons, replace_pair_eq_pass, ih]
  rw [Tokenizer.encode, h]
  simp only [Bool.not_true, Bool.false_eq_true, if_false, specEncode, key]

/-- Classifier with empty letter, digit and whitespace classes; used to
instantiate theorems at concrete inputs. -/
def trivClassifier : CharClassifier :=
  { letter := fun _ => false, digit := fun _ => false, space := fun _ => false }

/-- Concrete built tokenizer with one merge, used to instantiate theorems
at concrete inputs. -/
def builtExample : Tokenizer :=
  { built := true
    vocab_size := 300
    counts := []
    merges := [((97, 97), 256)]
    corpus := []
    vocab := buildVocab [((97, 97), 256)] }

theorem encode_is_ranked_passes_witness :
    builtExample.built = true ∧
    Tokenizer.encode builtExample [Char.ofNat 97, Char.ofNat 97, Char.ofNat 98] =
      Except.ok (specEncode builtExample.merges
        [Char.ofNat 97, Char.ofNat 97, Char.ofNat 98]) :=
  ⟨rfl, encode_is_ranked_passes builtExample
    [Char.ofNat 97, Char.ofNat 97, Char.ofNat 98] rfl⟩

/-- C7. Calling add after build or build a second time fails immediately
with the already-built error; calling encode or decode before build fails
with the not-built error; calling save before build fails with the
must-be-built error; none of these is silently ignored, and in particular a
second build returns the error without re-running training. -/
theorem state_violation_errors (t : Tokenizer) (k : CharClassifier)
    (text : List Char) (tokens : List Nat) :
    (t.built = true →
      t.add k text = Except.error TokErr.vocabularyAlreadyBuilt ∧
      t.build = Except.error TokErr.vocabularyAlreadyBuilt) ∧
    (t.built = false →
      t.encode text = Except.error TokErr.vocabularyNotBuiltYet ∧
      t.decode tokens = Except.error TokErr.vocabularyNotBuiltYet ∧
      save_tokenizer t = Except.error TokErr.mustBeBuiltBeforeSaving) := by
  constructor
  · intro h
    exact ⟨by rw [Tokenizer.add, if_pos h], by rw [Tokenizer.build, if_pos h]⟩
  · intro h
    refine ⟨?_, ?_, ?_⟩ <;>
      simp [Tokenizer.encode, Tokenizer.decode, save_tokenizer, h]

theorem state_violation_errors_witness :
    (Tokenizer.add builtExample trivClassifier [] =
      Except.error TokErr.vocabularyAlreadyBuilt) ∧
    (Tokenizer.encode (Tokenizer.new none) [] =
      Except.error TokErr.vocabularyNotBuiltYet) :=
  ⟨((state_violation_errors builtExample trivClassifier [] []).1 rfl).1,
   ((state_violation_errors (Tokenizer.new none) trivClassifier [] []).2 rfl).1⟩

/-- Count stored for a pair in the count table (0 when absent, matching the
DefaultDict view). -/
def pairCountOf : PairCounts → (Nat × Nat) → Nat
  | [], _ => 0
  | (q, n) :: rest, p => if q = p then n else pairCountOf rest p

/-- Number of occurrences of a pair in a list of pairs. -/
def occCount (p : Nat × Nat) : List (Nat × Nat) → Nat
  | [] => 0
  | q :: rest => (if q = p then 1 else 0) + occCount p rest

/-- Number of adjacent occurrences of a pair at consecutive positions
within one word, as the specification describes pair counting (section
4.2). -/
def adjOcc (p : Nat × Nat) : List Nat → Nat
  | a :: b :: rest => (if (a, b) = p then 1 else 0) + adjOcc p (b :: rest)
  | _ => 0

theorem pairCountOf_bump (counts : PairCounts) (q p : Nat × Nat) :
    pairCountOf (bumpPair counts q) p =
      pairCountOf counts p + if q = p then 1 else 0 := by
  induction counts with
  | nil => simp only [bumpPair, pairCountOf]; omega
  | cons item rest ih =>
    obtain ⟨r, n⟩ := item
    simp only [bumpPair]
    by_cases hrq : r = q
    · subst hrq
      rw [if_pos rfl]
      by_cases hrp : r = p <;> simp [pairCountOf, hrp]
    · rw [if_neg hrq]
      by_cases hrp : r = p
      · have hqp : ¬q = p := fun h => hrq (hrp.trans h.symm)
        simp [pairCountOf, hrp, hqp]
      · simp [pairCountOf, hrp, ih]

theorem pairCountOf_foldl_bump (L : List (Nat × Nat)) (p : Nat × Nat) :
    ∀ init, pairCountOf (L.foldl bumpPair init) p =
      pairCountOf init p + occCount p L := by
  induction L with
  | nil => intro init; simp [occCount]
  | cons q rest ih =>
    intro init
    simp only [List.foldl_cons, occCount, ih, pairCountOf_bump]
    omega

theorem adjOcc_eq_occCount_zip (p : Nat × Nat) (w : List Nat) :
    adjOcc p w = occCount p (w.zip w.tail) := by
  induction w with
  | nil => rfl
  | cons a rest ih =>
    cases rest with
    | nil => rfl
    | cons b rest2 =>
      have ih2 : adjOcc p (b :: rest2) = occCount p ((b :: rest2).zip rest2) := by
        simpa using ih
      simp only [adjOcc, List.tail_cons, List.zip_cons_cons, occCount, ih2, List.zip]

theorem pairCountOf_countWord (counts : PairCounts) (w : List Nat)
    (p : Nat × Nat) :
    pairCountOf (countWordPairs counts w) p =
      pairCountOf counts p + adjOcc p w := by
  rw [countWordPairs, pairCountOf_foldl_bump, adjOcc_eq_occCount_zip]

theorem pairCountOf_countCorpus (words : List (List Nat)) (p : Nat × Nat) :
    ∀ init, pairCountOf (countCorpus init words) p =
      pairCountOf init p + (words.map (fun w => adjOcc p w)).sum := by
  induction words with
  | nil => intro init; simp [countCorpus]
  | cons w rest ih =>
    intro init
    simp only [countCorpus, List.foldl_cons] at *
    rw [ih (countWordPairs init w), pairCountOf_countWord, List.map_cons,
      List.sum_cons]
    omega

/-- C4. Pair counting over a corpus of words counts, for each word
independently, every pair of symbols at consecutive positions within that
word (the total count of a pair is the sum over words of its within-word
adjacent occurrences, so a pair formed by the last symbol of one word and
the first symbol of the next is never counted); empty words and
single-symbol words contribute zero pairs; on the boundary
example of the two words ab and cd, the straddling pair (b, c) has count
zero. -/
theorem pair_counting_per_word (words : List (List Nat)) (p : Nat × Nat) :
    pairCountOf (countCorpus [] words) p =
      (words.map (fun w => adjOcc p w)).sum ∧
    (∀ x, adjOcc p [x] = 0) ∧
    adjOcc p [] = 0 ∧
    pairCountOf (countCorpus [] [[97, 98], [99, 100]]) (98, 99) = 0 := by
  refine ⟨?_, fun x => rfl, rfl, by decide⟩
  rw [pairCountOf_countCorpus]
  simp [pairCountOf]

theorem decode_ascii (b : Nat) (h : b < 0x80) (rest : List Nat) :
    utf8DecodeReplace (b :: rest) = Char.ofNat b :: utf8DecodeReplace rest := by
  rw [utf8DecodeReplace.eq_def]
  simp only []
  rw [if_pos h]

theorem decode_two (b c : Nat) (hb1 : 0xC2 ≤ b) (hb2 : b < 0xE0)
    (hc : isCont c = true) (rest : List Nat) :
    utf8DecodeReplace (b :: c :: rest) =
      Char.ofNat ((b - 0xC0) * 64 + (c - 0x80)) :: utf8DecodeReplace rest := by
  rw [utf8DecodeReplace.eq_def]
  simp only []
  rw [if_neg (by omega), if_neg (by omega), if_pos (by omega)]
  show (if isCont c then
      Char.ofNat ((b - 0xC0) * 64 + (c - 0x80)) :: utf8DecodeReplace rest
    else replChar :: utf8DecodeReplace (c :: rest)) = _
  rw [if_pos hc]

theorem decode_three (b c d : Nat) (hb1 : 0xE0 ≤ b) (hb2 : b < 0xF0)
    (hc : cont3 b c = true) (hd : isCont d = true) (rest : List Nat) :
    utf8DecodeReplace (b :: c :: d :: rest) =
      Char.ofNat ((b - 0xE0) * 4096 + (c - 0x80) * 64 + (d - 0x80)) ::
        utf8DecodeReplace rest := by
  rw [utf8DecodeReplace.eq_def]
  simp only []
  rw [if_neg (by omega), if_neg (by omega), if_neg (by omega),
    if_pos (by omega)]
  show (if cont3 b c then
      (if isCont d then
        Char.ofNat ((b - 0xE0) * 4096 + (c - 0x80) * 64 + (d - 0x80)) ::
          utf8DecodeReplace rest
       else replChar :: utf8DecodeReplace (d :: rest))
    else replChar :: utf8DecodeReplace (c :: d :: rest)) = _
  rw [if_pos hc, if_pos hd]

theorem decode_four (b c d e : Nat) (hb1 : 0xF0 ≤ b) (hb2 : b < 0xF5)
    (hc : cont4 b c = true) (hd : isCont d = true) (he : isCont e = true)
    (rest : List Nat) :
    utf8DecodeReplace (b :: c :: d :: e :: rest) =
      Char.ofNat ((b - 0xF0) * 262144 + (c - 0x80) * 4096 + (d - 0x80) * 64 +
        (e - 0x80)) :: utf8DecodeReplace rest := by
  rw [utf8DecodeReplace.eq_def]
  simp only []
  rw [if_neg (by omega), if_neg (by omega), if_neg (by omega),
    if_neg (by omega), if_pos (by omega)]
  show (if cont4 b c then
      (if isCont d then
        (if isCont e then
          Char.ofNat ((b - 0xF0) * 262144 + (c - 0x80) * 4096 +
            (d - 0x80) * 64 + (e - 0x80)) :: utf8DecodeReplace rest
         else replChar :: utf8DecodeReplace (e :: rest))
       else replChar :: utf8DecodeReplace (d :: e :: rest))
    else replChar :: utf8DecodeReplace (c :: d :: e :: rest)) = _
  rw [if_pos hc, if_pos hd, if_pos he]

theorem char_toNat_valid (c : Char) :
    c.toNat < 0xd800 ∨ (0xdfff < c.toNat ∧ c.toNat < 0x110000) := by
  have h := c.valid
  simp only [isValidChar] at h
  exact h

theorem utf8Decode_encodeChar (c : Char) (rest : List Nat) :
    utf8DecodeReplace (utf8EncodeChar c.toNat ++ rest) =
      c :: utf8DecodeReplace rest := by
  have hv := char_toNat_valid c
  set n := c.toNat with hn
  by_cases h1 : n < 0x80
  · rw [utf8EncodeChar, if_pos h1]
    simp only [List.cons_append, List.nil_append]
    rw [decode_ascii n h1, hn, Char.ofNat_toNat]
  · by_cases h2 : n < 0x800
    · rw [utf8EncodeChar, if_neg h1, if_pos h2]
      simp only [List.cons_append, List.nil_append]
      rw [decode_two _ _ (by omega) (by omega)
        (by simp only [isCont, Bool.and_eq_true, decide_eq_true_eq]; omega)]
      have harith : (0xC0 + n / 64 - 0xC0) * 64 + (0x80 + n % 64 - 0x80) = n := by
        omega
      rw [harith, hn, Char.ofNat_toNat]
    · by_cases h3 : n < 0x10000
      · rw [utf8EncodeChar, if_neg h1, if_neg h2, if_pos h3]
        simp only [List.cons_append, List.nil_append]
        rw [decode_three _ _ _ (by omega) (by omega)
          (by
            simp only [cont3, isCont]
            split_ifs <;>
              (simp only [Bool.and_eq_true, decide_eq_true_eq]; omega))
          (by simp only [isCont, Bool.and_eq_true, decide_eq_true_eq]; omega)]
        have harith : (0xE0 + n / 4096 - 0xE0) * 4096 +
            (0x80 + n / 64 % 64 - 0x80) * 64 + (0x80 + n % 64 - 0x80) = n := by
          omega
        rw [harith, hn, Char.ofNat_toNat]
      · have h4 : n < 0x110000 := by omega
        rw [utf8EncodeChar, if_neg h1, if_neg h2, if_neg h3]
        simp only [List.cons_append, List.nil_append]
        rw [decode_four _ _ _ _ (by omega) (by omega)
          (by
            simp only [cont4, isCont]
            split_ifs <;>
              (simp only [Bool.and_eq_true, decide_eq_true_eq]; omega))
          (by simp only [isCont, Bool.and_eq_true, decide_eq_true_eq]; omega)
          (by simp only [isCont, Bool.and_eq_true, decide_eq_true_eq]; omega)]
        have harith : (0xF0 + n / 262144 - 0xF0) * 262144 +
            (0x80 + n / 4096 % 64 - 0x80) * 4096 +
            (0x80 + n / 64 % 64 - 0x80) * 64 + (0x80 + n % 64 - 0x80) = n := by
          omega
        rw [harith, hn, Char.ofNat_toNat]

theorem strToBytes_cons (c : Char) (s : List Char) :
    strToBytes (c :: s) = utf8EncodeChar c.toNat ++ strToBytes s := by
  simp [strToBytes]

/-- Decoding the UTF-8 encoding of any string gives the string back. -/
theorem utf8Decode_strToBytes (s : List Char) :
    utf8DecodeReplace (strToBytes s) = s := by
  induction s with
  | nil => simp [strToBytes, utf8DecodeReplace]
  | cons c rest ih => rw [strToBytes_cons, utf8Decode_encodeChar, ih]

/-- Every byte of the UTF-8 encoding of a character is an actual byte. -/
theorem utf8EncodeChar_lt (c : Char) : ∀ b ∈ utf8EncodeChar c.toNat, b < 256 := by
  have hv := char_toNat_valid c
  intro b hb
  rw [utf8EncodeChar] at hb
  split_ifs at hb <;> simp only [List.mem_cons, List.not_mem_nil, or_false] at hb <;>
    omega

/-- Every byte of the UTF-8 encoding of a string is an actual byte. -/
theorem strToBytes_lt (s : List Char) : ∀ b ∈ strToBytes s, b < 256 := by
  induction s with
  | nil => intro b hb; simp [strToBytes] at hb
  | cons c rest ih =>
    intro b hb
    rw [strToBytes_cons, List.mem_append] at hb
    rcases hb with hb | hb
    · exact utf8EncodeChar_lt c b hb
    · exact ih b hb

theorem foldl_replace_eq_pass (ms : MergeList) : ∀ acc : List Nat,
    ms.foldl (fun tokens m => replace_pair_with_token tokens m.1 m.2) acc =
    ms.foldl (fun tokens m => pairReplacePass m.1 m.2 tokens) acc := by
  induction ms with
  | nil => intro acc; rfl
  | cons m rest ih =>
    intro acc
    simp only [List.foldl_cons, replace_pair_eq_pass, ih]

/-- Symbols produced by one replacement pass come from the input or are the
new token. -/
theorem pass_mem (pair : Nat × Nat) (nt : Nat) (w : List Nat) :
    ∀ x ∈ pairReplacePass pair nt w, x ∈ w ∨ x = nt := by
  induction w using pairReplacePass.induct pair nt with
  | case1 a b rest h ih =>
    intro x hx
    rw [pairReplacePass, if_pos h] at hx
    rcases List.mem_cons.mp hx with hx | hx
    · right; exact hx
    · rcases ih x hx with hx | hx
      · left; exact List.mem_cons_of_mem a (List.mem_cons_of_mem b hx)
      · right; exact hx
  | case2 a b rest h ih =>
    intro x hx
    rw [pairReplacePass, if_neg h] at hx
    rcases List.mem_cons.mp hx with hx | hx
    · left; exact hx ▸ List.mem_cons_self a _
    · rcases ih x hx with hx | hx
      · left; exact List.mem_cons_of_mem a hx
      · right; exact hx
  | case3 xs h =>
    intro x hx
    have hxs : pairReplacePass pair nt xs = xs := by
      cases xs with
      | nil => rfl
      | cons a tl =>
        cases tl with
        | nil => rfl
        | cons b rest => exact absurd rfl (h a b rest)
    rw [hxs] at hx
    exact Or.inl hx

theorem expandTokens_nil (vb : Vocab) : expandTokens vb [] = [] := rfl

theorem expandTokens_cons (vb : Vocab) (x : Nat) (ts : List Nat) :
    expandTokens vb (x :: ts) = vocabIdx vb x ++ expandTokens vb ts := by
  simp [expandTokens]

/-- One replacement pass does not change the concatenated expansion, as
long as the vocabulary expands the new token to the concatenation of the
expansions of the pair. -/
theorem expandTokens_pass (vb : Vocab) (p : Nat × Nat) (nt : Nat)
    (hcons : vocabIdx vb nt = vocabIdx vb p.1 ++ vocabIdx vb p.2)
    (w : List Nat) :
    expandTokens vb (pairReplacePass p nt w) = expandTokens vb w := by
  induction w using pairReplacePass.induct p nt with
  | case1 a b rest h ih =>
    rw [pairReplacePass, if_pos h, expandTokens_cons, ih, hcons,
      expandTokens_cons, expandTokens_cons, ← h.1, ← h.2, List.append_assoc]
  | case2 a b rest h ih =>
    rw [pairReplacePass, if_neg h]
    simp only [expandTokens_cons, ih]
  | case3 xs h =>
    have hxs : pairReplacePass p nt xs = xs := by
      cases xs with
      | nil => rfl
      | cons a tl =>
        cases tl with
        | nil => rfl
        | cons b rest => exact absurd rfl (h a b rest)
    rw [hxs]

theorem expandTokens_foldl_pass (vb : Vocab) : ∀ ms : MergeList,
    (∀ m ∈ ms, vocabIdx vb m.2 = vocabIdx vb m.1.1 ++ vocabIdx vb m.1.2) →
    ∀ acc, expandTokens vb
      (ms.foldl (fun tokens m => pairReplacePass m.1 m.2 tokens) acc) =
      expandTokens vb acc := by
  intro ms
  induction ms with
  | nil => intro _ acc; rfl
  | cons m rest ih =>
    intro h acc
    rw [List.foldl_cons, ih (fun x hx => h x (List.mem_cons_of_mem m hx)),
      expandTokens_pass vb m.1 m.2 (h m (List.mem_cons_self m rest))]

/-- Well-formedness of a merge list produced by training: the merge at
rank i carries token startTok + i, and both components of its pair are
strictly smaller symbols. -/
def mergesFrom (startTok : Nat) : MergeList → Prop
  | [] => True
  | (p, tk) :: rest =>
    tk = startTok ∧ p.1 < startTok ∧ p.2 < startTok ∧ mergesFrom (startTok + 1) rest

theorem mergesFrom_get : ∀ (ms : MergeList) (startTok : Nat),
    mergesFrom startTok ms →
    ∀ i (hi : i < ms.length),
      (ms.get ⟨i, hi⟩).2 = startTok + i ∧
      (ms.get ⟨i, hi⟩).1.1 < startTok + i ∧
      (ms.get ⟨i, hi⟩).1.2 < startTok + i := by
  intro ms
  induction ms with
  | nil => intro startTok _ i hi; simp at hi
  | cons m rest ih =>
    intro startTok h i hi
    obtain ⟨p, tk⟩ := m
    obtain ⟨h1, h2, h3, h4⟩ := h
    cases i with
    | zero => exact ⟨by simpa using h1, by simpa using h2, by simpa using h3⟩
    | succ j =>
      have hj : j < rest.length := by simpa using hi
      obtain ⟨ha, hb, hc⟩ := ih (startTok + 1) h4 j hj
      refine ⟨?_, ?_, ?_⟩ <;> simp only [List.get_cons_succ] <;> omega

theorem vocabFind_set (vb : Vocab) (k : Nat) (v : List Nat) (k2 : Nat) :
    vocabFind (vocabSet vb k v) k2 =
      if k = k2 then some v else vocabFind vb k2 := by
  induction vb with
  | nil => simp [vocabSet, vocabFind]
  | cons item rest ih =>
    obtain ⟨key, w⟩ := item
    by_cases hk : key = k
    · subst hk
      rw [vocabSet, if_pos rfl]
      by_cases h2 : key = k2 <;> simp [vocabFind, h2]
    · rw [vocabSet, if_neg hk]
      by_cases h2 : key = k2
      · have hkk2 : ¬k = k2 := fun hh => hk (h2.trans hh.symm)
        simp [vocabFind, h2, hkk2]
      · simp [vocabFind, h2, ih]

theorem vocabFind_append_some (v1 v2 : Vocab) (k : Nat) (v : List Nat)
    (h : vocabFind v1 k = some v) : vocabFind (v1 ++ v2) k = some v := by
  induction v1 with
  | nil => simp [vocabFind] at h
  | cons item rest ih =>
    obtain ⟨key, w⟩ := item
    rw [vocabFind] at h
    rw [List.cons_append, vocabFind]
    by_cases hk : key = k
    · rw [if_pos hk] at h ⊢; exact h
    · rw [if_neg hk] at h ⊢; exact ih h

theorem vocabFind_append_none (v1 v2 : Vocab) (k : Nat)
    (h : vocabFind v1 k = none) : vocabFind (v1 ++ v2) k = vocabFind v2 k := by
  induction v1 with
  | nil => rfl
  | cons item rest ih =>
    obtain ⟨key, w⟩ := item
    rw [vocabFind] at h
    rw [List.cons_append, vocabFind]
    by_cases hk : key = k
    · rw [if_pos hk] at h; exact absurd h (by simp)
    · rw [if_neg hk] at h ⊢; exact ih h

theorem vocabFind_rangeMap (n : Nat) : ∀ k : Nat,
    vocabFind ((List.range n).map fun i => (i, [i])) k =
      if k < n then some [k] else none := by
  induction n with
  | zero => intro k; simp [vocabFind]
  | succ m ih =>
    intro k
    rw [List.range_succ, List.map_append]
    by_cases hk : k < m
    · rw [vocabFind_append_some _ _ _ [k] (by rw [ih k, if_pos hk]),
        if_pos (by omega)]
    · rw [vocabFind_append_none _ _ _ (by rw [ih k, if_neg hk])]
      by_cases hm : m = k
      · subst hm
        simp [vocabFind]
      · rw [if_neg (by omega)]
        simp [vocabFind, hm]

theorem vocabFind_base (k : Nat) (h : k < 256) :
    vocabFind baseVocab k = some [k] := by
  rw [show baseVocab = (List.range 256).map fun i => (i, [i]) from rfl,
    vocabFind_rangeMap, if_pos h]

/-- Folding merges whose tokens all start at s does not change the entry of
any key below s. -/
theorem vocabFind_foldl_lt : ∀ (ms : MergeList) (s : Nat) (acc : Vocab)
    (k : Nat), mergesFrom s ms → k < s →
    vocabFind (ms.foldl vocabGrow acc) k = vocabFind acc k := by
  intro ms
  induction ms with
  | nil => intro s acc k _ _; rfl
  | cons m rest ih =>
    intro s acc k h hk
    obtain ⟨p, tk⟩ := m
    obtain ⟨h1, _, _, h4⟩ := h
    rw [List.foldl_cons, ih (s + 1) _ k h4 (by omega)]
    show vocabFind (vocabSet acc tk _) k = _
    rw [vocabFind_set, if_neg (by omega)]

/-- Every merge token of a well-formed merge list is a key of the grown
vocabulary. -/
theorem vocabFind_foldl_mem : ∀ (ms : MergeList) (s : Nat) (acc : Vocab),
    mergesFrom s ms →
    ∀ m ∈ ms, (vocabFind (ms.foldl vocabGrow acc) m.2).isSome = true := by
  intro ms
  induction ms with
  | nil => intro s acc _ m hm; simp at hm
  | cons m0 rest ih =>
    intro s acc h m hm
    obtain ⟨p, tk⟩ := m0
    obtain ⟨h1, _, _, h4⟩ := h
    rw [List.foldl_cons]
    rcases List.mem_cons.mp hm with hm | hm
    · subst hm
      rw [vocabFind_foldl_lt rest (s + 1) _ _ h4 (by omega)]
      show (vocabFind (vocabSet acc tk _) tk).isSome = true
      rw [vocabFind_set, if_pos rfl]
      rfl
    · exact ih (s + 1) _ h4 m hm

/-- In the grown vocabulary of a well-formed merge list, every merge token
expands to the concatenation of the expansions of its pair. -/
theorem vocab_consistent : ∀ (ms : MergeList) (s : Nat) (acc : Vocab),
    mergesFrom s ms →
    ∀ m ∈ ms, vocabIdx (ms.foldl vocabGrow acc) m.2 =
      vocabIdx (ms.foldl vocabGrow acc) m.1.1 ++
      vocabIdx (ms.foldl vocabGrow acc) m.1.2 := by
  intro ms
  induction ms with
  | nil => intro s acc _ m hm; simp at hm
  | cons m0 rest ih =>
    intro s acc h m hm
    obtain ⟨p, tk⟩ := m0
    obtain ⟨h1, h2, h3, h4⟩ := h
    rw [List.foldl_cons]
    rcases List.mem_cons.mp hm with hm | hm
    · subst hm
      have e1 : vocabFind (rest.foldl vocabGrow (vocabGrow acc (p, tk))) tk =
          some (vocabIdx acc p.1 ++ vocabIdx acc p.2) := by
        rw [vocabFind_foldl_lt rest (s + 1) _ _ h4 (by omega)]
        show vocabFind (vocabSet acc tk _) tk = _
        rw [vocabFind_set, if_pos rfl]
      have e2 : vocabFind (rest.foldl vocabGrow (vocabGrow acc (p, tk))) p.1 =
          vocabFind acc p.1 := by
        rw [vocabFind_foldl_lt rest (s + 1) _ _ h4 (by omega)]
        show vocabFind (vocabSet acc tk _) p.1 = _
        rw [vocabFind_set, if_neg (by omega)]
      have e3 : vocabFind (rest.foldl vocabGrow (vocabGrow acc (p, tk))) p.2 =
          vocabFind acc p.2 := by
        rw [vocabFind_foldl_lt rest (s + 1) _ _ h4 (by omega)]
        show vocabFind (vocabSet acc tk _) p.2 = _
        rw [vocabFind_set, if_neg (by omega)]
      show vocabIdx _ tk = vocabIdx _ p.1 ++ vocabIdx _ p.2
      rw [vocabIdx, vocabIdx, vocabIdx, e1, e2, e3]
      rfl
    · exact ih (s + 1) _ h4 m hm

theorem vocabIdx_buildVocab_base (ms : MergeList) (h : mergesFrom 256 ms)
    (b : Nat) (hb : b < 256) : vocabIdx (buildVocab ms) b = [b] := by
  rw [buildVocab, vocabIdx, vocabFind_foldl_lt ms 256 baseVocab b h hb,
    vocabFind_base b hb]
  rfl

theorem expandTokens_buildVocab_bytes (ms : MergeList)
    (h : mergesFrom 256 ms) : ∀ bs : List Nat, (∀ b ∈ bs, b < 256) →
    expandTokens (buildVocab ms) bs = bs := by
  intro bs
  induction bs with
  | nil => intro _; rfl
  | cons b rest ih =>
    intro hb
    rw [expandTokens_cons,
      vocabIdx_buildVocab_base ms h b (hb b (List.mem_cons_self b rest)),
      ih (fun x hx => hb x (List.mem_cons_of_mem b hx))]
    rfl

/-- Every symbol of every word of the corpus is below the bound. -/
def symbolsBelow (bound : Nat) (corpus : List (List Nat)) : Prop :=
  ∀ w ∈ corpus, ∀ x ∈ w, x < bound

/-- Both components of every pair key of the count table are below the
bound. -/
def countsBelow (bound : Nat) (counts : PairCounts) : Prop :=
  ∀ pc ∈ counts, pc.1.1 < bound ∧ pc.1.2 < bound

theorem maxPairAux_mem : ∀ (rest : PairCounts) (best : (Nat × Nat) × Nat),
    maxPairAux best rest = best ∨ maxPairAux best rest ∈ rest := by
  intro rest
  induction rest with
  | nil => intro best; left; rfl
  | cons item tail ih =>
    intro best
    obtain ⟨q, m⟩ := item
    rw [maxPairAux]
    rcases ih (if best.2 < m then (q, m) else best) with h | h
    · rw [h]
      by_cases hb : best.2 < m
      · right; rw [if_pos hb]; exact List.mem_cons_self _ _
      · left; rw [if_neg hb]
    · right; exact List.mem_cons_of_mem _ h

theorem getMaxPair_mem (counts : PairCounts) (item : (Nat × Nat) × Nat)
    (h : getMaxPair counts = some item) : item ∈ counts := by
  cases counts with
  | nil => simp [getMaxPair] at h
  | cons first rest =>
    rw [getMaxPair, Option.some_inj] at h
    rcases maxPairAux_mem rest first with h2 | h2
    · rw [← h, h2]; exact List.mem_cons_self _ _
    · rw [← h]; exact List.mem_cons_of_mem _ h2

theorem bumpPair_mem : ∀ (counts : PairCounts) (p : Nat × Nat)
    (pc : (Nat × Nat) × Nat), pc ∈ bumpPair counts p →
    pc.1 = p ∨ pc ∈ counts := by
  intro counts
  induction counts with
  | nil =>
    intro p pc h
    rw [bumpPair] at h
    rcases List.mem_cons.mp h with h | h
    · left; rw [h]
    · simp at h
  | cons item rest ih =>
    intro p pc h
    obtain ⟨q, n⟩ := item
    rw [bumpPair] at h
    by_cases hq : q = p
    · rw [if_pos hq] at h
      rcases List.mem_cons.mp h with h | h
      · left; rw [h]; exact hq
      · right; exact List.mem_cons_of_mem _ h
    · rw [if_neg hq] at h
      rcases List.mem_cons.mp h with h | h
      · right; rw [h]; exact List.mem_cons_self _ _
      · rcases ih p pc h with h2 | h2
        · left; exact h2
        · right; exact List.mem_cons_of_mem _ h2

theorem foldl_bump_mem : ∀ (L : List (Nat × Nat)) (init : PairCounts)
    (pc : (Nat × Nat) × Nat), pc ∈ L.foldl bumpPair init →
    pc ∈ init ∨ pc.1 ∈ L := by
  intro L
  induction L with
  | nil => intro init pc h; left; exact h
  | cons q rest ih =>
    intro init pc h
    rw [List.foldl_cons] at h
    rcases ih (bumpPair init q) pc h with h2 | h2
    · rcases bumpPair_mem init q pc h2 with h3 | h3
      · right; rw [h3]; exact List.mem_cons_self _ _
      · left; exact h3
    · right; exact List.mem_cons_of_mem _ h2

theorem countWordPairs_below (bound : Nat) (counts : PairCounts)
    (w : List Nat) (hw : ∀ x ∈ w, x < bound)
    (hc : countsBelow bound counts) :
    countsBelow bound (countWordPairs counts w) := by
  intro pc hpc
  rcases foldl_bump_mem _ _ _ hpc with h | h
  · exact hc pc h
  · have hz := List.of_mem_zip h
    exact ⟨hw _ hz.1, hw _ (List.mem_of_mem_tail hz.2)⟩

theorem countCorpus_below (bound : Nat) : ∀ (corpus : List (List Nat))
    (counts : PairCounts), symbolsBelow bound corpus →
    countsBelow bound counts →
    countsBelow bound (countCorpus counts corpus) := by
  intro corpus
  induction corpus with
  | nil => intro counts _ hc; exact hc
  | cons w rest ih =>
    intro counts hs hc
    rw [countCorpus, List.foldl_cons]
    exact ih (countWordPairs counts w)
      (fun x hx => hs x (List.mem_cons_of_mem w hx))
      (countWordPairs_below bound counts w
        (hs w (List.mem_cons_self w rest)) hc)

/-- Main invariant of the training loop: the merges recorded from a state
whose counts and corpus symbols are below the next token id form a
well-formed merge list starting at the next token id, and the loop stops
either because the fuel (remaining token ids) ran out or because the best
remaining pair occurs at most once. -/
theorem buildLoop_invariant (vs : Nat) : ∀ (fuel : Nat) (counts : PairCounts)
    (corpus : List (List Nat)) (merges : MergeList),
    fuel ≤ vs →
    countsBelow (vs - fuel) counts →
    symbolsBelow (vs - fuel) corpus →
    ∃ ms : MergeList,
      (buildLoop vs fuel counts corpus merges).2.2 = merges ++ ms ∧
      mergesFrom (vs - fuel) ms ∧
      (ms.length = fuel ∨
        ∀ p c, getMaxPair (buildLoop vs fuel counts corpus merges).1 =
          some (p, c) → c ≤ 1) := by
  intro fuel
  induction fuel with
  | zero =>
    intro counts corpus merges _ _ _
    exact ⟨[], by simp [buildLoop], trivial, Or.inl rfl⟩
  | succ fuel ih =>
    intro counts corpus merges hfuel hc hs
    rw [buildLoop]
    cases hm : getMaxPair counts with
    | none =>
      refine ⟨[], by simp, trivial, Or.inr ?_⟩
      intro p c hpc
      rw [hm] at hpc
      exact absurd hpc (by simp)
    | some item =>
      obtain ⟨pair, cnt⟩ := item
      simp only []
      by_cases hcnt : cnt ≤ 1
      · rw [if_pos hcnt]
        refine ⟨[], by simp, trivial, Or.inr ?_⟩
        intro p c hpc
        rw [hm, Option.some_inj] at hpc
        have : cnt = c := congrArg Prod.snd hpc
        omega
      · rw [if_neg hcnt]
        have hpair : pair.1 < vs - (fuel + 1) ∧ pair.2 < vs - (fuel + 1) :=
          hc _ (getMaxPair_mem counts _ hm)
        have hsym : symbolsBelow (vs - fuel)
            (corpus.map fun w =>
              replace_pair_with_token w pair (vs - (fuel + 1))) := by
          intro w hw x hx
          rw [List.mem_map] at hw
          obtain ⟨w0, hw0, hw0e⟩ := hw
          rw [← hw0e, replace_pair_eq_pass] at hx
          rcases pass_mem pair (vs - (fuel + 1)) w0 x hx with h2 | h2
          · have := hs w0 hw0 x h2
            omega
          · omega
        have hcnt2 : countsBelow (vs - fuel)
            (countCorpus []
              (corpus.map fun w =>
                replace_pair_with_token w pair (vs - (fuel + 1)))) :=
          countCorpus_below _ _ [] hsym (fun pc hpc => by simp at hpc)
        obtain ⟨ms, hms1, hms2, hms3⟩ :=
          ih (countCorpus []
              (corpus.map fun w =>
                replace_pair_with_token w pair (vs - (fuel + 1))))
            (corpus.map fun w =>
              replace_pair_with_token w pair (vs - (fuel + 1)))
            (merges ++ [(pair, vs - (fuel + 1))])
            (by omega) hcnt2 hsym
        refine ⟨(pair, vs - (fuel + 1)) :: ms, ?_, ?_, ?_⟩
        · rw [hms1, List.append_assoc]
          rfl
        · exact ⟨rfl, by omega, by omega, by
            have : vs - (fuel + 1) + 1 = vs - fuel := by omega
            rw [this]; exact hms2⟩
        · rcases hms3 with h3 | h3
          · left; simp [h3]
          · right; exact h3

/-- Vocabulary size actually used by the constructor for an optional
argument. -/
def trainVocabSize (vs : Option Nat) : Nat :=
  if vs.getD 0 = 0 then VOCAB_SIZE else vs.getD 0

/-- Corpus accumulated by adding the given texts in order. -/
def trainCorpus (k : CharClassifier) (texts : List (List Char)) :
    List (List Nat) :=
  (texts.map fun s => str_to_ints k s).flatten

/-- Result of the training loop for the given construction data. -/
def trainLoopResult (k : CharClassifier) (vs : Option Nat)
    (texts : List (List Char)) : PairCounts × List (List Nat) × MergeList :=
  buildLoop (trainVocabSize vs) (trainVocabSize vs - 256)
    (countCorpus [] (trainCorpus k texts)) (trainCorpus k texts) []

/-- Tokenizer produced by constructing, adding the texts and building. -/
def trainResult (k : CharClassifier) (vs : Option Nat)
    (texts : List (List Char)) : Tokenizer :=
  { built := true
    vocab_size := trainVocabSize vs
    counts := (trainLoopResult k vs texts).1
    merges := (trainLoopResult k vs texts).2.2
    corpus := (trainLoopResult k vs texts).2.1
    vocab := buildVocab (trainLoopResult k vs texts).2.2 }

theorem addTexts_unbuilt (k : CharClassifier) : ∀ (texts : List (List Char))
    (t : Tokenizer), t.built = false →
    addTexts k t texts = Except.ok
      { t with corpus :=
          t.corpus ++ (texts.map fun s => str_to_ints k s).flatten } := by
  intro texts
  induction texts with
  | nil =>
    intro t h
    simp [addTexts]
  | cons s rest ih =>
    intro t h
    rw [addTexts, Tokenizer.add, if_neg (by rw [h]; simp)]
    show addTexts k { t with corpus := t.corpus ++ str_to_ints k s } rest = _
    rw [ih { t with corpus := t.corpus ++ str_to_ints k s } (by rw [← h])]
    simp [List.append_assoc]

theorem trainTokenizer_eq (k : CharClassifier) (vs : Option Nat)
    (texts : List (List Char)) :
    trainTokenizer k vs texts = Except.ok (trainResult k vs texts) := by
  rw [trainTokenizer, addTexts_unbuilt k texts (Tokenizer.new vs) rfl]
  rfl

/-- Every corpus symbol produced by segmenting and UTF-8 encoding text is a
byte. -/
theorem trainCorpus_below (k : CharClassifier) (texts : List (List Char)) :
    symbolsBelow 256 (trainCorpus k texts) := by
  intro w hw x hx
  rw [trainCorpus, List.mem_flatten] at hw
  obtain ⟨l, hl, hwl⟩ := hw
  rw [List.mem_map] at hl
  obtain ⟨s, _, hse⟩ := hl
  rw [← hse, str_to_ints, List.mem_map] at hwl
  obtain ⟨seg, _, hsege⟩ := hwl
  rw [← hsege] at hx
  exact strToBytes_lt seg x hx

/-- When no pair of the count table occurs more than once, the training
loop stops immediately. -/
theorem buildLoop_no_repeat (vs fuel : Nat) (counts : PairCounts)
    (corpus : List (List Nat)) (merges : MergeList)
    (h : ∀ pc ∈ counts, pc.2 ≤ 1) :
    buildLoop vs fuel counts corpus merges = (counts, corpus, merges) := by
  cases fuel with
  | zero => rfl
  | succ fuel =>
    rw [buildLoop]
    cases hm : getMaxPair counts with
    | none => rfl
    | some item =>
      obtain ⟨pair, cnt⟩ := item
      simp only []
      rw [if_pos (h _ (getMaxPair_mem counts _ hm))]

/-- The merges of any trained tokenizer are well-formed starting at 256,
and training stopped for one of the loop conditions: the target size was
reached or the best remaining pair occurs at most once. -/
theorem trainResult_wf (k : CharClassifier) (vs : Option Nat)
    (texts : List (List Char)) :
    mergesFrom 256 (trainResult k vs texts).merges ∧
    (trainVocabSize vs ≤ 256 + (trainResult k vs texts).merges.length ∨
      ∀ p c, getMaxPair (trainResult k vs texts).counts = some (p, c) →
        c ≤ 1) := by
  by_cases h256 : 256 ≤ trainVocabSize vs
  · have hb : trainVocabSize vs - (trainVocabSize vs - 256) = 256 := by omega
    have hsym : symbolsBelow (trainVocabSize vs - (trainVocabSize vs - 256))
        (trainCorpus k texts) := by
      rw [hb]; exact trainCorpus_below k texts
    have hcnt : countsBelow (trainVocabSize vs - (trainVocabSize vs - 256))
        (countCorpus [] (trainCorpus k texts)) := by
      rw [hb]
      exact countCorpus_below 256 _ [] (trainCorpus_below k texts)
        (fun pc hpc => by simp at hpc)
    obtain ⟨ms, h1, h2, h3⟩ := buildLoop_invariant (trainVocabSize vs)
      (trainVocabSize vs - 256) (countCorpus [] (trainCorpus k texts))
      (trainCorpus k texts) [] (by omega) hcnt hsym
    have hm : (trainResult k vs texts).merges = ms := by
      show (trainLoopResult k vs texts).2.2 = ms
      rw [trainLoopResult, h1]
      rfl
    rw [hb] at h2
    constructor
    · rw [hm]; exact h2
    · rcases h3 with h3 | h3
      · left; rw [hm]; omega
      · right
        intro p c hpc
        exact h3 p c hpc
  · have h0 : trainVocabSize vs - 256 = 0 := by omega
    have hmerges : (trainResult k vs texts).merges = [] := by
      show (trainLoopResult k vs texts).2.2 = []
      rw [trainLoopResult, h0]
      rfl
    constructor
    · rw [hmerges]; trivial
    · left
      rw [hmerges]
      simp only [List.length_nil]
      omega

/-- C1. For every string s of well-formed UTF-8 (a list of Unicode scalar
values) and every tokenizer obtained by calling build() after any number of
add() calls (including zero, i.e. an empty corpus), for any segmenter
classifier and any vocabulary-size argument, decode(encode(s)) = s. -/
theorem bpe_round_trip (k : CharClassifier) (vs : Option Nat)
    (texts : List (List Char)) (t : Tokenizer) (s : List Char)
    (h : trainTokenizer k vs texts = Except.ok t) :
    (t.encode s).bind t.decode = Except.ok s := by
  rw [trainTokenizer_eq] at h
  injection h with h
  subst h
  have hmf := (trainResult_wf k vs texts).1
  have hbuilt : (trainResult k vs texts).built = true := rfl
  rw [Tokenizer.encode, hbuilt]
  simp only [Bool.not_true, Bool.false_eq_true, if_false]
  show Tokenizer.decode _ _ = _
  rw [Tokenizer.decode, hbuilt]
  simp only [Bool.not_true, Bool.false_eq_true, if_false]
  rw [foldl_replace_eq_pass]
  have hvocab : (trainResult k vs texts).vocab =
      buildVocab (trainResult k vs texts).merges := rfl
  rw [hvocab, buildVocab]
  rw [expandTokens_foldl_pass _ _
    (vocab_consistent (trainResult k vs texts).merges 256 baseVocab hmf)
    (strToBytes s)]
  rw [show (trainResult k vs texts).merges.foldl vocabGrow baseVocab =
      buildVocab (trainResult k vs texts).merges from rfl]
  rw [expandTokens_buildVocab_bytes _ hmf (strToBytes s) (strToBytes_lt s),
    utf8Decode_strToBytes]

theorem bpe_round_trip_witness :
    (Tokenizer.encode (trainResult trivClassifier none [])
      [Char.ofNat 72, Char.ofNat 105]).bind
      (Tokenizer.decode (trainResult trivClassifier none [])) =
      Except.ok [Char.ofNat 72, Char.ofNat 105] :=
  bpe_round_trip trivClassifier none [] (trainResult trivClassifier none [])
    [Char.ofNat 72, Char.ofNat 105] (trainTokenizer_eq trivClassifier none [])

/-- C3. The training loop of build() stops when the target vocabulary size
is reached, no pair exists, or the count of the most frequent pair is at most 1;
the merge of rank i carries symbol id 256 + i; and on a corpus in which no
adjacent pair occurs more than once, build records zero merges and encode
returns exactly the plain UTF-8 byte values of its input. -/
theorem training_loop_spec (k : CharClassifier) (vs : Option Nat)
    (texts : List (List Char)) (t : Tokenizer)
    (h : trainTokenizer k vs texts = Except.ok t) :
    (∀ i (hi : i < t.merges.length), (t.merges.get ⟨i, hi⟩).2 = 256 + i) ∧
    (t.vocab_size ≤ 256 + t.merges.length ∨
      ∀ p c, getMaxPair t.counts = some (p, c) → c ≤ 1) ∧
    ((∀ pc ∈ countCorpus [] (trainCorpus k texts), pc.2 ≤ 1) →
      t.merges = [] ∧ ∀ s, t.encode s = Except.ok (strToBytes s)) := by
  rw [trainTokenizer_eq] at h
  injection h with h
  subst h
  obtain ⟨hmf, hstop⟩ := trainResult_wf k vs texts
  refine ⟨?_, hstop, ?_⟩
  · intro i hi
    exact (mergesFrom_get _ 256 hmf i hi).1
  · intro hno
    have hloop := buildLoop_no_repeat (trainVocabSize vs)
      (trainVocabSize vs - 256) (countCorpus [] (trainCorpus k texts))
      (trainCorpus k texts) [] hno
    have hmerges : (trainResult k vs texts).merges = [] := by
      show (trainLoopResult k vs texts).2.2 = []
      rw [trainLoopResult, hloop]
    refine ⟨hmerges, ?_⟩
    intro s
    rw [Tokenizer.encode, show (trainResult k vs texts).built = true from rfl]
    simp only [Bool.not_true, Bool.false_eq_true, if_false, hmerges,
      List.foldl_nil]

theorem training_loop_spec_witness :
    (trainResult trivClassifier none []).merges = [] ∧
    Tokenizer.encode (trainResult trivClassifier none [])
      [Char.ofNat 72, Char.ofNat 105] =
      Except.ok (strToBytes [Char.ofNat 72, Char.ofNat 105]) := by
  have h := (training_loop_spec trivClassifier none []
    (trainResult trivClassifier none [])
    (trainTokenizer_eq trivClassifier none [])).2.2
    (by intro pc hpc; simp [trainCorpus, countCorpus] at hpc)
  exact ⟨h.1, h.2 [Char.ofNat 72, Char.ofNat 105]⟩

/-- Tokens of a fold of replacement passes come from the initial sequence
or are merge tokens of the list. -/
theorem foldl_pass_mem : ∀ (ms : MergeList) (acc : List Nat) (x : Nat),
    x ∈ ms.foldl (fun tokens m => pairReplacePass m.1 m.2 tokens) acc →
    x ∈ acc ∨ ∃ m ∈ ms, x = m.2 := by
  intro ms
  induction ms with
  | nil => intro acc x h; left; exact h
  | cons m rest ih =>
    intro acc x h
    rw [List.foldl_cons] at h
    rcases ih _ x h with h2 | h2
    · rcases pass_mem m.1 m.2 acc x h2 with h3 | h3
      · left; exact h3
      · right; exact ⟨m, List.mem_cons_self m rest, h3⟩
    · obtain ⟨m2, hm2, hx⟩ := h2
      right; exact ⟨m2, List.mem_cons_of_mem m hm2, hx⟩

/-- C10. For every tokenizer obtained via build() and every input string,
every token id returned by encode is a key of the vocabulary
table (a base byte 0-255 or the symbol of some recorded merge), so the
unknown-token branch of decode is never taken on output that encode itself produced. -/
theorem encode_tokens_in_vocab (k : CharClassifier) (vs : Option Nat)
    (texts : List (List Char)) (t : Tokenizer) (s : List Char)
    (toks : List Nat) (h : trainTokenizer k vs texts = Except.ok t)
    (he : t.encode s = Except.ok toks) :
    ∀ x ∈ toks, (vocabFind t.vocab x).isSome = true := by
  rw [trainTokenizer_eq] at h
  injection h with h
  subst h
  have hmf := (trainResult_wf k vs texts).1
  rw [Tokenizer.encode] at he
  simp only [show (trainResult k vs texts).built = true from rfl,
    Bool.not_true, Bool.false_eq_true, if_false, Except.ok.injEq] at he
  intro x hx
  rw [← he, foldl_replace_eq_pass] at hx
  have hvocab : (trainResult k vs texts).vocab =
      buildVocab (trainResult k vs texts).merges := rfl
  rcases foldl_pass_mem _ _ x hx with h2 | h2
  · have hxb : x < 256 := strToBytes_lt s x h2
    rw [hvocab, buildVocab,
      vocabFind_foldl_lt _ 256 baseVocab x hmf hxb, vocabFind_base x hxb]
    rfl
  · obtain ⟨m, hm, hx2⟩ := h2
    rw [hvocab, buildVocab, hx2]
    exact vocabFind_foldl_mem _ 256 baseVocab hmf m hm

theorem encode_tokens_in_vocab_witness :
    (vocabFind (trainResult trivClassifier none []).vocab 72).isSome = true :=
  encode_tokens_in_vocab trivClassifier none []
    (trainResult trivClassifier none []) [Char.ofNat 72] [72]
    (trainTokenizer_eq trivClassifier none []) (by rfl) 72
    (List.mem_cons_self 72 [])

theorem except_bind_ok {α β : Type} (a : α) (f : α → Except TokErr β) :
    (Except.ok a >>= f) = f a := rfl

theorem except_bind_error {α β : Type} (e : TokErr)
    (f : α → Except TokErr β) :
    ((Except.error e : Except TokErr α) >>= f) = Except.error e := rfl

/-- Byte layout of the merge records: for each merge in rank order, the
pair as two little-endian u32 then the token as one u32 (12 bytes per
record). -/
def mergeBytes : MergeList → List Nat
  | [] => []
  | (p, tk) :: rest => u32le p.1 ++ (u32le p.2 ++ (u32le tk ++ mergeBytes rest))

/-- Tokenizer reconstructed by load from a merge list. -/
def loadedTok (ms : MergeList) : Tokenizer :=
  { built := true
    vocab_size := VOCAB_SIZE
    counts := []
    merges := ms
    corpus := []
    vocab := buildVocab ms }

theorem leU32_u32le (n : Nat) (h : n < 4294967296) : leU32 (u32le n) = n := by
  simp [leU32, u32le, List.getD]
  omega

theorem u32le_length (n : Nat) : (u32le n).length = 4 := rfl

theorem packU32_ok (n : Nat) (h : n < 4294967296) :
    packU32 n = Except.ok (u32le n) := by
  rw [packU32, if_pos h]

theorem packU32_ok_inv (n : Nat) (l : List Nat) (h : packU32 n = Except.ok l) :
    l = u32le n ∧ n < 4294967296 := by
  rw [packU32] at h
  by_cases hn : n < 4294967296
  · rw [if_pos hn] at h
    exact ⟨(Except.ok.injEq _ _ ▸ h).symm, hn⟩
  · rw [if_neg hn] at h
    exact absurd h (by simp)

theorem saveMerges_ok (ms : MergeList)
    (h32 : ∀ m ∈ ms, m.1.1 < 4294967296 ∧ m.1.2 < 4294967296 ∧
      m.2 < 4294967296) :
    saveMerges ms = Except.ok (mergeBytes ms) := by
  induction ms with
  | nil => rfl
  | cons m rest ih =>
    obtain ⟨p, tk⟩ := m
    obtain ⟨h1, h2, h3⟩ := h32 (p, tk) (List.mem_cons_self _ _)
    rw [saveMerges, packU32_ok _ h1, packU32_ok _ h2, packU32_ok _ h3,
      ih (fun m hm => h32 m (List.mem_cons_of_mem _ hm))]
    show Except.ok _ = _
    rw [mergeBytes]
    simp [List.append_assoc]

theorem mergeBytes_length (ms : MergeList) :
    (mergeBytes ms).length = 12 * ms.length := by
  induction ms with
  | nil => rfl
  | cons m rest ih =>
    obtain ⟨p, tk⟩ := m
    simp only [mergeBytes, List.length_append, u32le_length, ih,
      List.length_cons]
    omega

theorem readMergeEntries_mergeBytes (ms : MergeList)
    (h32 : ∀ m ∈ ms, m.1.1 < 4294967296 ∧ m.1.2 < 4294967296 ∧
      m.2 < 4294967296) :
    readMergeEntries ms.length (mergeBytes ms) = Except.ok ms := by
  induction ms with
  | nil => rfl
  | cons m rest ih =>
    obtain ⟨p, tk⟩ := m
    obtain ⟨h1, h2, h3⟩ := h32 (p, tk) (List.mem_cons_self _ _)
    have hlen : (mergeBytes ((p, tk) :: rest)).length = 12 * (rest.length + 1) := by
      rw [mergeBytes_length]; simp
    rw [List.length_cons, readMergeEntries, if_neg (by omega)]
    have e1 : (mergeBytes ((p, tk) :: rest)).take 4 = u32le p.1 := by
      rw [mergeBytes, show (4 : Nat) = (u32le p.1).length from rfl,
        List.take_left]
    have e2 : (mergeBytes ((p, tk) :: rest)).drop 4 =
        u32le p.2 ++ (u32le tk ++ mergeBytes rest) := by
      rw [mergeBytes, show (4 : Nat) = (u32le p.1).length from rfl,
        List.drop_left]
    have e3 : (mergeBytes ((p, tk) :: rest)).drop 8 =
        u32le tk ++ mergeBytes rest := by
      rw [show (8 : Nat) = 4 + 4 from rfl, ← List.drop_drop, e2,
        show (4 : Nat) = (u32le p.2).length from rfl, List.drop_left]
    rw [e1, e2, e3]
    rw [if_neg (by simp [u32le_length]; try omega)]
    rw [show (u32le p.2 ++ (u32le tk ++ mergeBytes rest)).take 4 = u32le p.2 by
      rw [show (4 : Nat) = (u32le p.2).length from rfl, List.take_left]]
    rw [show (u32le tk ++ mergeBytes rest).take 4 = u32le tk by
      rw [show (4 : Nat) = (u32le tk).length from rfl, List.take_left]]
    rw [show (u32le tk ++ mergeBytes rest).drop 4 = mergeBytes rest by
      rw [show (4 : Nat) = (u32le tk).length from rfl, List.drop_left]]
    rw [ih (fun m hm => h32 m (List.mem_cons_of_mem _ hm))]
    show Except.ok _ = _
    rw [leU32_u32le _ h1, leU32_u32le _ h2, leU32_u32le _ h3]

theorem readMergeEntries_length : ∀ (n : Nat) (bs : List Nat) (ms : MergeList),
    readMergeEntries n bs = Except.ok ms → ms.length = n := by
  intro n
  induction n with
  | zero =>
    intro bs ms h
    rw [readMergeEntries] at h
    injection h with h
    rw [← h]
    rfl
  | succ n ih =>
    intro bs ms h
    rw [readMergeEntries] at h
    by_cases h8 : bs.length < 8
    · rw [if_pos h8] at h; exact absurd h (by simp)
    · rw [if_neg h8] at h
      by_cases h4 : (bs.drop 8).length < 4
      · rw [if_pos h4] at h; exact absurd h (by simp)
      · rw [if_neg h4] at h
        cases hr : readMergeEntries n ((bs.drop 8).drop 4) with
        | error e =>
          rw [hr, except_bind_error] at h
          exact absurd h (by simp)
        | ok rest =>
          rw [hr, except_bind_ok] at h
          injection h with h
          rw [← h, List.length_cons, ih _ rest hr]

theorem readMergeEntries_short : ∀ (n : Nat) (bs : List Nat),
    bs.length < 12 * n →
    readMergeEntries n bs = Except.error TokErr.incompletePairData ∨
    readMergeEntries n bs = Except.error TokErr.incompleteTokenData := by
  intro n
  induction n with
  | zero => intro bs h; omega
  | succ n ih =>
    intro bs h
    rw [readMergeEntries]
    by_cases h8 : bs.length < 8
    · left; rw [if_pos h8]
    · rw [if_neg h8]
      by_cases h4 : (bs.drop 8).length < 4
      · right; rw [if_pos h4]
      · rw [if_neg h4]
        rw [List.length_drop] at h4
        rcases ih ((bs.drop 8).drop 4) (by simp [List.length_drop]; omega)
          with hr | hr
        · left; rw [hr, except_bind_error]
        · right; rw [hr, except_bind_error]

theorem load_bytes_mergeBytes (ms : MergeList)
    (h32 : ∀ m ∈ ms, m.1.1 < 4294967296 ∧ m.1.2 < 4294967296 ∧
      m.2 < 4294967296)
    (hlen : ms.length < 4294967296) :
    load_bytes (u32le 1 ++ (u32le ms.length ++ mergeBytes ms)) =
      Except.ok (loadedTok ms) := by
  have e1 : (u32le 1 ++ (u32le ms.length ++ mergeBytes ms)).take 4 =
      u32le 1 := by
    rw [show (4 : Nat) = (u32le 1).length from rfl, List.take_left]
  have e2 : (u32le 1 ++ (u32le ms.length ++ mergeBytes ms)).drop 4 =
      u32le ms.length ++ mergeBytes ms := by
    rw [show (4 : Nat) = (u32le 1).length from rfl, List.drop_left]
  rw [load_bytes, if_neg (by simp [u32le_length]), e1,
    leU32_u32le 1 (by omega), if_neg (by omega), e2,
    if_neg (by simp [u32le_length])]
  rw [show (u32le ms.length ++ mergeBytes ms).take 4 = u32le ms.length by
    rw [show (4 : Nat) = (u32le ms.length).length from rfl, List.take_left]]
  rw [show (u32le ms.length ++ mergeBytes ms).drop 4 = mergeBytes ms by
    rw [show (4 : Nat) = (u32le ms.length).length from rfl, List.drop_left]]
  rw [leU32_u32le _ hlen, readMergeEntries_mergeBytes ms h32]
  rfl

theorem save_tokenizer_ok (t : Tokenizer) (hb : t.built = true)
    (h32 : ∀ m ∈ t.merges, m.1.1 < 4294967296 ∧ m.1.2 < 4294967296 ∧
      m.2 < 4294967296)
    (hlen : t.merges.length < 4294967296) :
    save_tokenizer t =
      Except.ok (u32le 1 ++ (u32le t.merges.length ++ mergeBytes t.merges)) := by
  rw [save_tokenizer, hb]
  simp only [Bool.not_true, Bool.false_eq_true, if_false]
  rw [packU32_ok 1 (by omega), packU32_ok _ hlen, saveMerges_ok _ h32]
  show Except.ok _ = _
  simp [List.append_assoc]

theorem leU32_lt (bs : List Nat) (h : ∀ b ∈ bs, b < 256) :
    leU32 bs < 4294967296 := by
  have hg : ∀ i, bs.getD i 0 < 256 := by
    intro i
    by_cases hi : i < bs.length
    · rw [List.getD_eq_getElem _ _ hi]
      exact h _ (List.getElem_mem hi)
    · rw [List.getD_eq_default _ _ (by omega)]
      omega
  have h0 := hg 0
  have h1 := hg 1
  have h2 := hg 2
  have h3 := hg 3
  rw [leU32]
  omega

theorem mergesFrom_length_lt (ms : MergeList) (h : mergesFrom 256 ms)
    (h32 : ∀ m ∈ ms, m.2 < 4294967296) : ms.length < 4294967296 := by
  by_cases h0 : ms.length = 0
  · omega
  · have hi : ms.length - 1 < ms.length := by omega
    have hg := (mergesFrom_get ms 256 h (ms.length - 1) hi).1
    have hm := h32 (ms.get ⟨ms.length - 1, hi⟩) (ms.get_mem (ms.length - 1) hi)
    omega

theorem load_bytes_ok_inv (bs : List Nat) (t : Tokenizer)
    (hbytes : ∀ b ∈ bs, b < 256) (h : load_bytes bs = Except.ok t) :
    t.built = true ∧ t.vocab = buildVocab t.merges ∧
    t.merges.length < 4294967296 := by
  rw [load_bytes] at h
  by_cases h4 : bs.length < 4
  · rw [if_pos h4] at h; exact absurd h (by simp)
  · rw [if_neg h4] at h
    by_cases hv : leU32 (bs.take 4) ≠ 1
    · rw [if_pos hv] at h; exact absurd h (by simp)
    · rw [if_neg hv] at h
      by_cases h42 : (bs.drop 4).length < 4
      · rw [if_pos h42] at h; exact absurd h (by simp)
      · rw [if_neg h42] at h
        cases hr : readMergeEntries (leU32 ((bs.drop 4).take 4))
            ((bs.drop 4).drop 4) with
        | error e =>
          rw [hr, except_bind_error] at h
          exact absurd h (by simp)
        | ok ms =>
          rw [hr, except_bind_ok] at h
          injection h with h
          subst h
          refine ⟨rfl, rfl, ?_⟩
          show ms.length < 4294967296
          rw [readMergeEntries_length _ _ _ hr]
          apply leU32_lt
          intro b hb
          exact hbytes b (List.drop_subset _ _ (List.take_subset _ _ hb))

/-- Built tokenizers reachable through the API: produced by build() after
construction and any number of add() calls, or reconstructed by load from
the bytes of a file. -/
def Reachable (t : Tokenizer) : Prop :=
  (∃ k vs texts, trainTokenizer k vs texts = Except.ok t) ∨
  (∃ bs : List Nat, (∀ b ∈ bs, b < 256) ∧ load_bytes bs = Except.ok t)

theorem reachable_facts (t : Tokenizer) (hr : Reachable t)
    (h32 : ∀ m ∈ t.merges, m.1.1 < 4294967296 ∧ m.1.2 < 4294967296 ∧
      m.2 < 4294967296) :
    t.built = true ∧ t.vocab = buildVocab t.merges ∧
    t.merges.length < 4294967296 := by
  rcases hr with ⟨k, vs, texts, h⟩ | ⟨bs, hbytes, h⟩
  · rw [trainTokenizer_eq] at h
    injection h with h
    subst h
    exact ⟨rfl, rfl, mergesFrom_length_lt _ (trainResult_wf k vs texts).1
      (fun m hm => (h32 m hm).2.2)⟩
  · exact load_bytes_ok_inv bs t hbytes h

/-- C5. For every built tokenizer (reachable via build or load) whose
symbol values all fit in an unsigned 32-bit integer, loading the saved
bytes yields a tokenizer with the identical merge list (pairs, assigned
symbols and rank order), immediately in the built state, whose encode
output on any string and whose decode of any token list are identical to
those of the original. -/
theorem persistence_round_trip (t : Tokenizer) (hr : Reachable t)
    (h32 : ∀ m ∈ t.merges, m.1.1 < 4294967296 ∧ m.1.2 < 4294967296 ∧
      m.2 < 4294967296) :
    ∃ (bs : List Nat) (t2 : Tokenizer),
      save_tokenizer t = Except.ok bs ∧
      load_bytes bs = Except.ok t2 ∧
      (∀ (fs : String → Option (List Nat)) (path : String),
        fs path = some bs → load_tokenizer fs path = Except.ok t2) ∧
      t2.merges = t.merges ∧
      t2.built = true ∧
      (∀ s, t2.encode s = t.encode s) ∧
      (∀ ts, t2.decode ts = t.decode ts) := by
  obtain ⟨hb, hv, hlen⟩ := reachable_facts t hr h32
  refine ⟨u32le 1 ++ (u32le t.merges.length ++ mergeBytes t.merges),
    loadedTok t.merges, save_tokenizer_ok t hb h32 hlen,
    load_bytes_mergeBytes t.merges h32 hlen, ?_, rfl, rfl, ?_, ?_⟩
  · intro fs path hp
    rw [load_tokenizer, hp]
    exact load_bytes_mergeBytes t.merges h32 hlen
  · intro s
    rw [Tokenizer.encode, Tokenizer.encode, hb,
      show (loadedTok t.merges).built = true from rfl,
      show (loadedTok t.merges).merges = t.merges from rfl]
  · intro ts
    rw [Tokenizer.decode, Tokenizer.decode, hb,
      show (loadedTok t.merges).built = true from rfl]
    simp only [Bool.not_true, Bool.false_eq_true, if_false, hv]
    rfl

theorem persistence_round_trip_witness :
    save_tokenizer (trainResult trivClassifier none []) =
      Except.ok [1, 0, 0, 0, 0, 0, 0, 0] ∧
    load_bytes [1, 0, 0, 0, 0, 0, 0, 0] = Except.ok (loadedTok []) := by
  obtain ⟨bs, t2, h1, h2, _, _, _, _, _⟩ :=
    persistence_round_trip (trainResult trivClassifier none [])
      (Or.inl ⟨trivClassifier, none, [],
        trainTokenizer_eq trivClassifier none []⟩)
      (by
        intro m hm
        have he : (trainResult trivClassifier none []).merges = [] := rfl
        rw [he] at hm
        simp at hm)
  have e1 : (Except.ok bs : Except TokErr (List Nat)) =
      Except.ok [1, 0, 0, 0, 0, 0, 0, 0] := by
    rw [← h1]
    rfl
  injection e1 with e1
  subst e1
  have e2 : (Except.ok t2 : Except TokErr Tokenizer) =
      Except.ok (loadedTok []) := by
    rw [← h2]
    rfl
  injection e2 with e2
  subst e2
  exact ⟨h1, h2⟩

/-- Errors reported when fewer bytes are available than the format
declares (truncated header or truncated record). -/
def truncationErr : TokErr → Bool
  | .missingVersion | .missingEntryCount => true
  | .incompletePairData | .incompleteTokenData => true
  | _ => false

theorem saveMerges_ok_inv : ∀ (ms : MergeList) (body : List Nat),
    saveMerges ms = Except.ok body → body = mergeBytes ms := by
  intro ms
  induction ms with
  | nil =>
    intro body h
    rw [saveMerges] at h
    injection h with h
    exact h.symm
  | cons m rest ih =>
    intro body h
    obtain ⟨p, tk⟩ := m
    rw [saveMerges] at h
    cases h1 : packU32 p.1 with
    | error e => rw [h1, except_bind_error] at h; exact absurd h (by simp)
    | ok l1 =>
      rw [h1, except_bind_ok] at h
      cases h2 : packU32 p.2 with
      | error e => rw [h2, except_bind_error] at h; exact absurd h (by simp)
      | ok l2 =>
        rw [h2, except_bind_ok] at h
        cases h3 : packU32 tk with
        | error e => rw [h3, except_bind_error] at h; exact absurd h (by simp)
        | ok l3 =>
          rw [h3, except_bind_ok] at h
          cases h4 : saveMerges rest with
          | error e => rw [h4, except_bind_error] at h; exact absurd h (by simp)
          | ok bodyRest =>
            rw [h4, except_bind_ok] at h
            injection h with h
            rw [← h, (packU32_ok_inv _ _ h1).1, (packU32_ok_inv _ _ h2).1,
              (packU32_ok_inv _ _ h3).1, ih bodyRest h4, mergeBytes]
            simp [List.append_assoc]

theorem save_ok_shape (t : Tokenizer) (bs : List Nat)
    (h : save_tokenizer t = Except.ok bs) :
    bs = u32le 1 ++ (u32le t.merges.length ++ mergeBytes t.merges) ∧
    bs.length = 8 + 12 * t.merges.length ∧
    t.merges.length < 4294967296 := by
  rw [save_tokenizer] at h
  by_cases hb : t.built = true
  · rw [hb] at h
    simp only [Bool.not_true, Bool.false_eq_true, if_false] at h
    rw [packU32_ok 1 (by omega), except_bind_ok] at h
    cases hl : packU32 t.merges.length with
    | error e => rw [hl, except_bind_error] at h; exact absurd h (by simp)
    | ok cnt =>
      rw [hl, except_bind_ok] at h
      obtain ⟨hcnt, hlen32⟩ := packU32_ok_inv _ _ hl
      cases hs : saveMerges t.merges with
      | error e => rw [hs, except_bind_error] at h; exact absurd h (by simp)
      | ok body =>
        rw [hs, except_bind_ok] at h
        injection h with h
        have hbody := saveMerges_ok_inv _ _ hs
        subst hcnt hbody
        refine ⟨?_, ?_, hlen32⟩
        · rw [← h]
          simp [List.append_assoc]
        · rw [← h]
          simp [List.length_append, u32le_length, mergeBytes_length]
          omega
  · have hb2 : t.built = false := by
      cases hbt : t.built
      · rfl
      · exact absurd hbt hb
    rw [hb2] at h
    exact absurd h (by simp)

theorem load_bytes_truncated (N : Nat) (body : List Nat)
    (hbl : body.length = 12 * N) (hN : N < 4294967296) :
    ∀ n, n < 8 + 12 * N →
    ∃ e, load_bytes ((u32le 1 ++ (u32le N ++ body)).take n) = Except.error e ∧
      truncationErr e = true := by
  intro n hn
  have hbslen : (u32le 1 ++ (u32le N ++ body)).length = 8 + 12 * N := by
    simp [List.length_append, u32le_length, hbl]
    omega
  by_cases h4 : n < 4
  · refine ⟨TokErr.missingVersion, ?_, rfl⟩
    rw [load_bytes, if_pos (by rw [List.length_take]; omega)]
  · have e1 : ((u32le 1 ++ (u32le N ++ body)).take n).take 4 = u32le 1 := by
      rw [List.take_take, show min 4 n = 4 by omega,
        show (4 : Nat) = (u32le 1).length from rfl, List.take_left]
    have e2 : ((u32le 1 ++ (u32le N ++ body)).take n).drop 4 =
        (u32le N ++ body).take (n - 4) := by
      rw [List.drop_take,
        show (u32le 1 ++ (u32le N ++ body)).drop 4 = u32le N ++ body by
          rw [show (4 : Nat) = (u32le 1).length from rfl, List.drop_left]]
    by_cases h8 : n < 8
    · refine ⟨TokErr.missingEntryCount, ?_, rfl⟩
      rw [load_bytes, if_neg (by rw [List.length_take]; omega), e1,
        leU32_u32le 1 (by omega), if_neg (by omega), e2,
        if_pos (by rw [List.length_take, List.length_append, u32le_length]; omega)]
    · have e3 : ((u32le N ++ body).take (n - 4)).take 4 = u32le N := by
        rw [List.take_take, show min 4 (n - 4) = 4 by omega,
          show (4 : Nat) = (u32le N).length from rfl, List.take_left]
      have e4 : ((u32le N ++ body).take (n - 4)).drop 4 =
          body.take (n - 8) := by
        rw [List.drop_take,
          show (u32le N ++ body).drop 4 = body by
            rw [show (4 : Nat) = (u32le N).length from rfl, List.drop_left],
          show n - 4 - 4 = n - 8 by omega]
      have hrecLen : (body.take (n - 8)).length < 12 * N := by
        rw [List.length_take]
        omega
      rcases readMergeEntries_short N (body.take (n - 8)) hrecLen with hr | hr
      · refine ⟨TokErr.incompletePairData, ?_, rfl⟩
        rw [load_bytes, if_neg (by rw [List.length_take]; omega), e1,
          leU32_u32le 1 (by omega), if_neg (by omega), e2,
          if_neg (by
            rw [List.length_take, List.length_append, u32le_length]
            omega),
          e3, e4, leU32_u32le N hN, hr, except_bind_error]
      · refine ⟨TokErr.incompleteTokenData, ?_, rfl⟩
        rw [load_bytes, if_neg (by rw [List.length_take]; omega), e1,
          leU32_u32le 1 (by omega), if_neg (by omega), e2,
          if_neg (by
            rw [List.length_take, List.length_append, u32le_length]
            omega),
          e3, e4, leU32_u32le N hN, hr, except_bind_error]

/-- C6. Loading fails with three distinct, distinguishable conditions: a
file whose first four bytes decode (little-endian) to a version other than
1 fails with the version-specific error carrying that version; any strict
prefix of a saved file (fewer bytes than declared, truncated header or
mid-record) fails with a truncation-specific error; and a nonexistent path
fails with the not-found condition, distinct from both format
violations. -/
theorem load_failure_modes :
    (∀ (fs : String → Option (List Nat)) (path : String), fs path = none →
      load_tokenizer fs path = Except.error TokErr.fileNotFound) ∧
    (∀ bs : List Nat, 4 ≤ bs.length → leU32 (bs.take 4) ≠ 1 →
      load_bytes bs =
        Except.error (TokErr.unsupportedFileVersion (leU32 (bs.take 4)))) ∧
    (∀ (t : Tokenizer) (bs : List Nat), save_tokenizer t = Except.ok bs →
      ∀ n, n < bs.length →
        ∃ e, load_bytes (bs.take n) = Except.error e ∧
          truncationErr e = true) ∧
    (∀ v, truncationErr (TokErr.unsupportedFileVersion v) = false ∧
      truncationErr TokErr.fileNotFound = false ∧
      TokErr.fileNotFound ≠ TokErr.unsupportedFileVersion v ∧
      ∀ e, truncationErr e = true →
        e ≠ TokErr.unsupportedFileVersion v ∧ e ≠ TokErr.fileNotFound) := by
  refine ⟨?_, ?_, ?_, ?_⟩
  · intro fs path hp
    rw [load_tokenizer, hp]
  · intro bs hlen hv
    rw [load_bytes, if_neg (by omega), if_pos hv]
  · intro t bs hs n hn
    obtain ⟨hshape, hlen, h32⟩ := save_ok_shape t bs hs
    subst hshape
    exact load_bytes_truncated t.merges.length (mergeBytes t.merges)
      (mergeBytes_length t.merges) h32 n (by rw [hlen] at hn; exact hn)
  · intro v
    refine ⟨rfl, rfl, by simp, ?_⟩
    intro e he
    cases e <;> simp_all [truncationErr]

theorem load_failure_modes_witness :
    (load_tokenizer (fun _ => none) [Char.ofNat 120].asString =
      Except.error TokErr.fileNotFound) ∧
    (load_bytes [2, 0, 0, 0] =
      Except.error (TokErr.unsupportedFileVersion 2)) ∧
    (load_bytes
      ([1, 0, 0, 0, 1, 0, 0, 0, 97, 0, 0, 0, 97, 0, 0, 0, 0, 1, 0, 0].take 5) =
      Except.error TokErr.missingEntryCount) := by
  refine ⟨load_failure_modes.1 (fun _ => none) [Char.ofNat 120].asString rfl,
    ?_, ?_⟩
  · have h := load_failure_modes.2.1 [2, 0, 0, 0] (by decide) (by decide)
    have e : leU32 ([2, 0, 0, 0].take 4) = 2 := by decide
    rw [e] at h
    exact h
  · obtain ⟨e, he, ht⟩ := load_failure_modes.2.2.1 builtExample
      [1, 0, 0, 0, 1, 0, 0, 0, 97, 0, 0, 0, 97, 0, 0, 0, 0, 1, 0, 0]
      (by rfl) 5 (by decide)
    have e2 : (Except.error e : Except TokErr Tokenizer) =
        Except.error TokErr.missingEntryCount := by
      rw [← he]
      rfl
    injection e2 with e2
    subst e2
    exact he

theorem expandTokens_append (vb : Vocab) (l1 l2 : List Nat) :
    expandTokens vb (l1 ++ l2) = expandTokens vb l1 ++ expandTokens vb l2 := by
  simp [expandTokens]

/-- C8. For every built tokenizer and every list of integer tokens, decode
never fails: it always returns a string; a token id not present in the
vocabulary contributes zero bytes to the output (silent skip, not an
error); and a malformed byte (any standalone byte at or above 0x80) is
replaced by the standard substitution character U+FFFD. -/
theorem decode_never_fails (t : Tokenizer) (h : t.built = true) :
    (∀ ts : List Nat, t.decode ts =
      Except.ok (utf8DecodeReplace (expandTokens t.vocab ts))) ∧
    (∀ (ts1 ts2 : List Nat) (u : Nat), vocabFind t.vocab u = none →
      t.decode (ts1 ++ u :: ts2) = t.decode (ts1 ++ ts2)) ∧
    (∀ b : Nat, 0x80 ≤ b → utf8DecodeReplace [b] = [replChar]) := by
  refine ⟨?_, ?_, ?_⟩
  · intro ts
    rw [Tokenizer.decode, h]
    rfl
  · intro ts1 ts2 u hu
    rw [Tokenizer.decode, Tokenizer.decode, h]
    simp only [Bool.not_true, Bool.false_eq_true, if_false]
    have he : expandTokens t.vocab (ts1 ++ u :: ts2) =
        expandTokens t.vocab (ts1 ++ ts2) := by
      rw [expandTokens_append, expandTokens_append, expandTokens_cons,
        vocabIdx, hu]
      rfl
    rw [he]
  · intro b hb
    rw [utf8DecodeReplace.eq_def]
    simp only []
    split_ifs <;>
      first
        | (exfalso; omega)
        | simp [utf8DecodeReplace]

theorem decode_never_fails_witness :
    Tokenizer.decode builtExample ([] ++ 999 :: []) =
      Tokenizer.decode builtExample ([] ++ []) ∧
    utf8DecodeReplace [255] = [replChar] :=
  ⟨(decode_never_fails builtExample rfl).2.1 [] [] 999 (by rfl),
   (decode_never_fails builtExample rfl).2.2 255 (by omega)⟩

theorem option_orElse_some {α : Type} (a : α) (f : Unit → Option α) :
    (some a).orElse f = some a := rfl

theorem option_orElse_none {α : Type} (f : Unit → Option α) :
    (none : Option α).orElse f = f () := rfl

theorem lenWhile_le (f : Char → Bool) (cs : List Char) :
    lenWhile f cs ≤ cs.length := by
  rw [lenWhile]
  exact (List.takeWhile_sublist f).length_le

theorem lenWhile_cons (f : Char → Bool) (c : Char) (rest : List Char) :
    lenWhile f (c :: rest) = if f c then lenWhile f rest + 1 else 0 := by
  rw [lenWhile, List.takeWhile_cons]
  split_ifs <;> simp [lenWhile]

theorem contractionLen_bounds (cs : List Char) (n : Nat)
    (h : contractionLen cs = some n) : 1 ≤ n ∧ n ≤ cs.length := by
  cases cs with
  | nil => simp [contractionLen] at h
  | cons a tl =>
    cases tl with
    | nil => simp [contractionLen] at h
    | cons c rest =>
      cases rest with
      | nil =>
        rw [contractionLen] at h
        split_ifs at h <;>
          (injection h with h
           subst h
           exact ⟨by omega, by simp only [List.length_cons]; omega⟩)
      | cons e tail =>
        rw [contractionLen] at h
        split_ifs at h <;>
          (injection h with h
           subst h
           exact ⟨by omega, by simp only [List.length_cons]; omega⟩)

theorem branchRun_bounds (isC : Char → Bool) (cs : List Char) (n : Nat)
    (h : branchRun isC cs = some n) : 1 ≤ n ∧ n ≤ cs.length := by
  cases cs with
  | nil => simp [branchRun] at h
  | cons c rest =>
    rw [branchRun] at h
    have hle1 := lenWhile_le isC rest
    have hle2 := lenWhile_le isC (c :: rest)
    simp only [List.length_cons] at hle2 ⊢
    split_ifs at h <;>
      first
      | exact Option.noConfusion h
      | (injection h with h
         subst h
         exact ⟨by omega, by omega⟩)

theorem wsLookaheadLen_bounds (sp : Char → Bool) (cs : List Char) (n : Nat)
    (h : wsLookaheadLen sp cs = some n) : 1 ≤ n ∧ n ≤ cs.length := by
  rw [wsLookaheadLen] at h
  have hle := lenWhile_le sp cs
  split_ifs at h <;>
    first
    | exact Option.noConfusion h
    | (injection h with h
       subst h
       exact ⟨by omega, by omega⟩)

theorem wsRunLen_bounds (sp : Char → Bool) (cs : List Char) (n : Nat)
    (h : wsRunLen sp cs = some n) : 1 ≤ n ∧ n ≤ cs.length := by
  rw [wsRunLen] at h
  have hle := lenWhile_le sp cs
  split_ifs at h with h1
  injection h with h
  subst h
  exact ⟨by omega, by omega⟩

theorem gpt2MatchLen_bounds (k : CharClassifier) (cs : List Char) (n : Nat)
    (h : gpt2MatchLen k cs = some n) : 1 ≤ n ∧ n ≤ cs.length := by
  rw [gpt2MatchLen] at h
  cases h1 : contractionLen cs with
  | some m =>
    rw [h1, option_orElse_some] at h
    injection h with h
    exact h ▸ contractionLen_bounds cs m h1
  | none =>
    rw [h1, option_orElse_none] at h
    cases h2 : branchRun k.letter cs with
    | some m =>
      rw [h2, option_orElse_some] at h
      injection h with h
      exact h ▸ branchRun_bounds _ cs m h2
    | none =>
      rw [h2, option_orElse_none] at h
      cases h3 : branchRun k.digit cs with
      | some m =>
        rw [h3, option_orElse_some] at h
        injection h with h
        exact h ▸ branchRun_bounds _ cs m h3
      | none =>
        rw [h3, option_orElse_none] at h
        cases h4 : branchRun (isOther k) cs with
        | some m =>
          rw [h4, option_orElse_some] at h
          injection h with h
          exact h ▸ branchRun_bounds _ cs m h4
        | none =>
          rw [h4, option_orElse_none] at h
          cases h5 : wsLookaheadLen k.space cs with
          | some m =>
            rw [h5, option_orElse_some] at h
            injection h with h
            exact h ▸ wsLookaheadLen_bounds _ cs m h5
          | none =>
            rw [h5, option_orElse_none] at h
            exact wsRunLen_bounds _ cs n h

theorem branchRun_none (isC : Char → Bool) (c : Char) (rest : List Char)
    (h : branchRun isC (c :: rest) = none) : isC c = false := by
  rw [branchRun] at h
  by_cases hc : c = ' '
  · rw [if_pos hc] at h
    split_ifs at h with h1 h2
    simpa using h2
  · rw [if_neg hc] at h
    split_ifs at h with h1
    rw [lenWhile_cons] at h1
    by_cases hC : isC c
    · rw [if_pos hC] at h1
      omega
    · simpa using hC

theorem wsRunLen_none (sp : Char → Bool) (c : Char) (rest : List Char)
    (h : wsRunLen sp (c :: rest) = none) : sp c = false := by
  rw [wsRunLen] at h
  split_ifs at h with h1
  rw [lenWhile_cons] at h1
  by_cases hC : sp c
  · rw [if_pos hC] at h1
    omega
  · simpa using hC

/-- The GPT-2 pattern matches at every nonempty position: every character
is covered by one of the letter, digit, punctuation or whitespace
branches. -/
theorem gpt2MatchLen_isSome (k : CharClassifier) (c : Char)
    (rest : List Char) : (gpt2MatchLen k (c :: rest)).isSome = true := by
  cases hm : gpt2MatchLen k (c :: rest) with
  | some n => rfl
  | none =>
    exfalso
    rw [gpt2MatchLen] at hm
    cases h1 : contractionLen (c :: rest) with
    | some m => rw [h1, option_orElse_some] at hm; exact absurd hm (by simp)
    | none =>
    rw [h1, option_orElse_none] at hm
    cases h2 : branchRun k.letter (c :: rest) with
    | some m => rw [h2, option_orElse_some] at hm; exact absurd hm (by simp)
    | none =>
    rw [h2, option_orElse_none] at hm
    cases h3 : branchRun k.digit (c :: rest) with
    | some m => rw [h3, option_orElse_some] at hm; exact absurd hm (by simp)
    | none =>
    rw [h3, option_orElse_none] at hm
    cases h4 : branchRun (isOther k) (c :: rest) with
    | some m => rw [h4, option_orElse_some] at hm; exact absurd hm (by simp)
    | none =>
    rw [h4, option_orElse_none] at hm
    cases h5 : wsLookaheadLen k.space (c :: rest) with
    | some m => rw [h5, option_orElse_some] at hm; exact absurd hm (by simp)
    | none =>
    rw [h5, option_orElse_none] at hm
    have hL := branchRun_none _ _ _ h2
    have hD := branchRun_none _ _ _ h3
    have hO := branchRun_none _ _ _ h4
    have hS := wsRunLen_none _ _ _ hm
    rw [isOther, hL, hD, hS] at hO
    simp at hO

theorem findallLoop_coverage (k : CharClassifier) : ∀ (fuel : Nat)
    (cs : List Char), cs.length ≤ fuel →
    (findallLoop k fuel cs).flatten = cs := by
  intro fuel
  induction fuel with
  | zero =>
    intro cs h
    have : cs = [] := List.eq_nil_of_length_eq_zero (by omega)
    subst this
    rfl
  | succ fuel ih =>
    intro cs h
    cases cs with
    | nil => rfl
    | cons c rest =>
      have hstep : findallLoop k (fuel + 1) (c :: rest) =
          match gpt2MatchLen k (c :: rest) with
          | some n => (c :: rest).take n :: findallLoop k fuel ((c :: rest).drop n)
          | none => findallLoop k fuel ((c :: rest).drop 1) := rfl
      rw [hstep]
      cases hm : gpt2MatchLen k (c :: rest) with
      | none =>
        have := gpt2MatchLen_isSome k c rest
        rw [hm] at this
        exact absurd this (by simp)
      | some n =>
        obtain ⟨hn1, hn2⟩ := gpt2MatchLen_bounds k (c :: rest) n hm
        simp only [List.length_cons] at h hn2
        show ((c :: rest).take n :: findallLoop k fuel ((c :: rest).drop n)).flatten = c :: rest
        rw [List.flatten_cons,
          ih ((c :: rest).drop n)
            (by simp only [List.length_drop, List.length_cons]; omega),
          List.take_append_drop]

/-- C9. For every string s and every character classifier, concatenating
all segments produced by the segmenter on s reconstructs s exactly (total
coverage, no dropped characters, no gaps, no overlaps); likewise
re-decoding each UTF-8-encoded segment of str_to_ints and concatenating
reconstructs s. -/
theorem segmenter_coverage (k : CharClassifier) (s : List Char) :
    (gpt2Findall k s).flatten = s ∧
    ((str_to_ints k s).map utf8DecodeReplace).flatten = s := by
  have h1 : (gpt2Findall k s).flatten = s :=
    findallLoop_coverage k s.length s (le_refl _)
  refine ⟨h1, ?_⟩
  rw [str_to_ints, List.map_map]
  have hfun : (utf8DecodeReplace ∘ strToBytes) = id := by
    funext w
    exact utf8Decode_strToBytes w
  rw [hfun, List.map_id]
  exact h1

end Mini
